import Mathlib

/-!
# Post-processing of the object scanner (`src/scanner.cpp`)

A shallow embedding of class `AIScanner`: its state (network handle, class
catalog, the two thresholds), the decode loop and result assembly of
`detectObjects`, the label lookup of `drawDetections`, `getClassName` and
`setConfidenceThreshold`.

Conventions of the embedding.
* `float`/`double` values are rationals (`ℚ`): the finite values. Comparisons
  are exact. A `float` product and the cast `(float)i` of an `int` are rounded
  to the nearest binary32 value, ties to even (`toFloat`). A result beyond the
  binary32 range, infinite in the program, stays a rational beyond the range
  of `int`; the only use made of it is the cast to `int`, which treats both
  alike.
* `int` values are integers (`Int`) of the 32-bit range. The cast `(int)v` of
  a floating value is truncation toward zero, and gives the least `int` when
  the truncation is outside the range (the result of the conversion
  instruction of the x86-64 target); `int - int` wraps modulo `2^32`;
  `int / int` is truncating division. Positions in a vector are natural
  numbers.
* An `int` used as a `vector` subscript or compared with a `size_t` is first
  converted to the unsigned 64-bit type, that is reduced modulo `2^64`.
* A library call outside its domain or a subscript outside the vector makes the
  embedded function return `none`.
* The forward pass of the network is outside the program text; its result
  (`outputs`, a list of matrices, each a list of rows) is an argument.
-/

namespace Scanner

/-! ## Data model -/

/-- The value `cv::Rect(x, y, width, height)` with `int` coordinates. -/
structure Rect where
  x : Int
  y : Int
  width : Int
  height : Int
deriving DecidableEq, Repr

/-- A network handle; only `net.empty()` is observed by the scanner. -/
structure Net where
  empty : Bool
deriving DecidableEq, Repr

/-- The private fields of class `AIScanner` (lines 15-18). -/
structure AIScanner where
  net : Net
  classes : List String
  confidenceThreshold : ℚ
  nmsThreshold : ℚ
deriving DecidableEq, Repr

/-- The frame as the decode loop reads it: `frame.cols` and `frame.rows`. -/
structure Frame where
  cols : Int
  rows : Int
deriving DecidableEq, Repr

/-- The values of the 32-bit type `int`. -/
def IsInt (i : Int) : Prop := -2 ^ 31 ≤ i ∧ i < 2 ^ 31

instance (i : Int) : Decidable (IsInt i) := by
  unfold IsInt
  infer_instance

/-- The cast `(int)v` of a floating value: truncation toward zero; the least
`int` when the truncation is not a value of `int`. -/
def toInt (v : ℚ) : Int :=
  let t := Int.tdiv v.num v.den
  if -2 ^ 31 ≤ t ∧ t < 2 ^ 31 then t else -2 ^ 31

/-- Truncation toward zero of a rational, as an integer without bound. -/
def trunc (v : ℚ) : Int := if 0 ≤ v then ⌊v⌋ else ⌈v⌉

/-- The result of an `int` addition or subtraction whose exact value is `z`:
`z` reduced modulo `2^32` into the range of `int`. -/
def wrapInt (z : Int) : Int := (z + 2 ^ 31) % 2 ^ 32 - 2 ^ 31

/-- The nearest integer, the even one of the two when `x` is half-way. -/
def roundHalfEven (x : ℚ) : Int :=
  let f := ⌊x⌋
  if x - f < 1 / 2 then f
  else if 1 / 2 < x - f then f + 1
  else if f % 2 = 0 then f else f + 1

/-- The binary exponent of the binary32 values around `q`: the integer part of
the base-2 logarithm of `|q|`, and -126 in the subnormal range. The spacing of
the binary32 values there is `2 ^ (f32Exponent q - 23)`. -/
def f32Exponent (q : ℚ) : Int := max (Int.log 2 |q|) (-126)

/-- The binary32 (`float`) value of the exact result `q` of a `float`
operation or of an `int` converted to `float`: the nearest multiple of the
spacing, ties to the even multiple. -/
def toFloat (q : ℚ) : ℚ :=
  roundHalfEven (q / 2 ^ (f32Exponent q - 23)) * 2 ^ (f32Exponent q - 23)

/-- The integers that the cast `(float)i` leaves unchanged for sure: those of
magnitude at most `2 ^ 24`. -/
def FitsFloat (i : Int) : Prop := -2 ^ 24 ≤ i ∧ i ≤ 2 ^ 24

instance (i : Int) : Decidable (FitsFloat i) := by
  unfold FitsFloat
  infer_instance

/-- The finite binary32 values: a significand of 24 bits times a power of two
between `2 ^ -149` and `2 ^ 104`. -/
def IsBinary32 (q : ℚ) : Prop :=
  ∃ m k : Int, |m| < 2 ^ 24 ∧ -149 ≤ k ∧ k ≤ 104 ∧ q = (m : ℚ) * 2 ^ k

/-- Conversion of an `int` to `size_t` (unsigned, 64 bits). -/
def toSizeT (i : Int) : Nat := (i % 2 ^ 64).toNat

/-! ## Class catalog -/

/-- The initializer list assigned to `classes` by `loadClasses` (lines 45-58). -/
def cocoClasses : List String :=
  ["person", "bicycle", "car", "motorcycle", "airplane", "bus", "train", "truck",
   "boat", "traffic light", "fire hydrant", "stop sign", "parking meter", "bench",
   "bird", "cat", "dog", "horse", "sheep", "cow", "elephant", "bear", "zebra",
   "giraffe", "backpack", "umbrella", "handbag", "tie", "suitcase", "frisbee",
   "skis", "snowboard", "sports ball", "kite", "baseball bat", "baseball glove",
   "skateboard", "surfboard", "tennis racket", "bottle", "wine glass", "cup",
   "fork", "knife", "spoon", "bowl", "banana", "apple", "sandwich", "orange",
   "broccoli", "carrot", "hot dog", "pizza", "donut", "cake", "chair", "couch",
   "potted plant", "bed", "dining table", "toilet", "tv", "laptop", "mouse",
   "remote", "keyboard", "cell phone", "microwave", "oven", "toaster", "sink",
   "refrigerator", "book", "clock", "vase", "scissors", "teddy bear",
   "hair drier", "toothbrush"]

/-- Member function `AIScanner::loadClasses` (lines 43-60): overwrite the catalog. -/
def loadClasses (s : AIScanner) : AIScanner :=
  { s with classes := cocoClasses }

/-- The constructor `AIScanner()` (lines 17-25): default member initializers,
a default-constructed (empty) network, then `loadClasses()`. The two
thresholds are the literals as written, 0.5 and 0.4; the `float` field holds
the binary32 value nearest to the literal. -/
def AIScanner.new : AIScanner :=
  loadClasses { net := { empty := true }, classes := [],
                confidenceThreshold := 1 / 2, nmsThreshold := 2 / 5 }

/-- Member function `AIScanner::loadModel` (lines 28-40). The outcome of the library call
`readNet` is the argument: `some n` when it returns the network `n`, `none`
when it throws (the `catch` branch). Returns the new state and the `bool`
result. -/
def loadModel (s : AIScanner) (readNet : Option Net) : AIScanner × Bool :=
  match readNet with
  | some n => ({ s with net := n }, true)
  | none => (s, false)

/-- Member function `AIScanner::setConfidenceThreshold` (lines 167-169). -/
def setConfidenceThreshold (s : AIScanner) (threshold : ℚ) : AIScanner :=
  { s with confidenceThreshold := threshold }

/-- Member function `AIScanner::getClassName` (lines 172-177). In `classId < classes.size()` the
`int` is converted to `size_t`; the subscript is taken under the guard. -/
def getClassName (s : AIScanner) (classId : Int) : String :=
  if h : 0 ≤ classId ∧ toSizeT classId < s.classes.length then
    s.classes.get ⟨toSizeT classId, h.2⟩
  else
    "Unknown"

/-! ## Decoding of the network output (lines 86-114) -/

/-- Modelled from the spec: the scan behind the library routine `minMaxLoc`,
which is called by `detectObjects` and is not part of the program text.
Section 4.1: "find the index and value of the maximum class score across the
C class slots (ties: first index with the maximum value wins)". The scan
keeps the best value seen so far and replaces it only by a strictly greater
one; `i` is the position of the head of the remaining list. -/
def maxLocFrom (best : ℚ) (bestIdx : Nat) (i : Nat) : List ℚ → ℚ × Nat
  | [] => (best, bestIdx)
  | v :: rest =>
    if v > best then maxLocFrom v i (i + 1) rest
    else maxLocFrom best bestIdx (i + 1) rest

/-- Modelled from the spec: the library routine `minMaxLoc(scores, 0,
&confidence, 0, &classIdPoint)`, absent from the program text: the maximum
value and the first position holding it (section 4.1). The spec gives no
result for an empty range of scores; that call is reported as `none`. -/
def minMaxLoc : List ℚ → Option (ℚ × Nat)
  | [] => none
  | v :: rest => some (maxLocFrom v 0 1 rest)

/-- The expression `output.row(i).colRange(5, output.cols)` (line 94): the
columns from index 5 to the end of the row; the range is invalid (`none`) for
a row of fewer than 5 columns. -/
def colRange5 (row : List ℚ) : Option (List ℚ) :=
  if 5 ≤ row.length then some (row.drop 5) else none

/-- The three parallel vectors `classIds`, `confidences`, `boxes`
(lines 86-88). -/
structure Candidates where
  classIds : List Int
  confidences : List ℚ
  boxes : List Rect
deriving DecidableEq, Repr

/-- The box built at lines 102-107 and 111 from the row `data` and the frame.
In `data[0] * frame.cols` the `int` is converted to `float` and the product is
a `float`, which the cast truncates. -/
def decodeBox (frame : Frame) (d0 d1 d2 d3 : ℚ) : Rect :=
  let centerX := toInt (toFloat (d0 * toFloat frame.cols))
  let centerY := toInt (toFloat (d1 * toFloat frame.rows))
  let width := toInt (toFloat (d2 * toFloat frame.cols))
  let height := toInt (toFloat (d3 * toFloat frame.rows))
  let left := wrapInt (centerX - Int.tdiv width 2)
  let top := wrapInt (centerY - Int.tdiv height 2)
  { x := left, y := top, width := width, height := height }

/-- One iteration of the inner loop (lines 93-113) on the row `data`: take the
maximum class score and its position, and when it exceeds the threshold append
the class id, the confidence and the box to the three vectors. -/
def decodeRow (confidenceThreshold : ℚ) (frame : Frame) (acc : Candidates)
    (data : List ℚ) : Option Candidates := do
  let scores ← colRange5 data
  let (confidence, classIdPoint) ← minMaxLoc scores
  if confidence > confidenceThreshold then
    let d0 ← data[0]?
    let d1 ← data[1]?
    let d2 ← data[2]?
    let d3 ← data[3]?
    some { classIds := acc.classIds ++ [(classIdPoint : Int)],
           confidences := acc.confidences ++ [confidence],
           boxes := acc.boxes ++ [decodeBox frame d0 d1 d2 d3] }
  else
    some acc

/-- The three vectors as declared at lines 86-88, before the loops. -/
def Candidates.empty : Candidates :=
  { classIds := [], confidences := [], boxes := [] }

/-- The vectors `a` followed by the vectors `b`. -/
def Candidates.append (a b : Candidates) : Candidates :=
  { classIds := a.classIds ++ b.classIds,
    confidences := a.confidences ++ b.confidences,
    boxes := a.boxes ++ b.boxes }

/-- The two nested loops (lines 90-114) over the output matrices and their
rows, starting from empty vectors. -/
def decode (confidenceThreshold : ℚ) (frame : Frame)
    (outputs : List (List (List ℚ))) : Option Candidates :=
  outputs.foldlM
    (fun acc output => output.foldlM (decodeRow confidenceThreshold frame) acc)
    Candidates.empty

/-! ## Non-maximum suppression (line 118) -/

/-- Modelled from the spec: the area of a box, used by the overlap measure of
the library routine `NMSBoxes` (section 4.3: "area of a degenerate
(zero-width/height) box is 0"). -/
def Rect.area (r : Rect) : Int := r.width * r.height

/-- Modelled from the spec: the intersection area of two axis-aligned
rectangles (section 4.3), zero when they do not overlap. -/
def intersectionArea (a b : Rect) : Int :=
  let w := min (a.x + a.width) (b.x + b.width) - max a.x b.x
  let h := min (a.y + a.height) (b.y + b.height) - max a.y b.y
  if w ≤ 0 ∨ h ≤ 0 then 0 else w * h

/-- Modelled from the spec: Intersection-over-Union as section 4.3 defines it
for the library routine `NMSBoxes`: "standard intersection-area / union-area
of two axis-aligned rectangles ... if union area is 0, define IoU as 0". -/
def IoU (a b : Rect) : ℚ :=
  let i := intersectionArea a b
  let u := a.area + b.area - i
  if u = 0 then 0 else (i : ℚ) / (u : ℚ)

/-- Modelled from the spec: a candidate as the library routine `NMSBoxes`
sees it (section 4.3, "Candidates (with box, confidence, classId)"): its
position in the parallel vectors, its score and its box. The class id is not
part of it, the suppression being class-agnostic. -/
structure Scored where
  idx : Nat
  score : ℚ
  box : Rect
deriving DecidableEq, Repr

/-- Modelled from the spec: the input of the library routine `NMSBoxes` as a
list of candidates "in original candidate order" (section 4.3): the boxes
paired with the scores, numbered from `i`. -/
def entriesFrom (i : Nat) : List Rect → List ℚ → List Scored
  | b :: bs, s :: ss => { idx := i, score := s, box := b } :: entriesFrom (i + 1) bs ss
  | _, _ => []

/-- Modelled from the spec: step 2 and 3 of section 4.3 for the library
routine `NMSBoxes`: "take the highest-remaining-confidence candidate, emit it
as a kept Detection, then remove every remaining candidate whose IoU with the
kept box is ≥ nmsThreshold, irrespective of class", until none remains. The
argument is the pool sorted by confidence, highest first. -/
def suppress (nms_threshold : ℚ) : List Scored → List Scored
  | [] => []
  | c :: rest =>
    c :: suppress nms_threshold
      (rest.filter fun r => !decide (IoU c.box r.box ≥ nms_threshold))
termination_by l => l.length
decreasing_by
  simp_wf
  exact Nat.lt_succ_of_le (List.length_filter_le _ _)

/-- Modelled from the spec: the candidates kept by the library routine
`NMSBoxes`, absent from the program text, in the order they are kept.
Section 4.2 gives the admission test on the score ("keep the Candidate iff
confidence > confidenceThreshold"), section 4.3 the rest: "Sort all surviving
candidates by confidence descending. Ties broken by original candidate order
(stable sort)", then the greedy removal. -/
def keptEntries (bboxes : List Rect) (scores : List ℚ)
    (score_threshold nms_threshold : ℚ) : List Scored :=
  let surviving := (entriesFrom 0 bboxes scores).filter
    fun c => decide (c.score > score_threshold)
  let sorted := surviving.insertionSort fun a b => a.score ≥ b.score
  suppress nms_threshold sorted

/-- Modelled from the spec: the library routine `NMSBoxes(bboxes, scores,
score_threshold, nms_threshold, indices)`, absent from the program text; the
result is `indices`, the positions of the kept candidates "in the order they
were kept" (section 4.3). -/
def NMSBoxes (bboxes : List Rect) (scores : List ℚ)
    (score_threshold nms_threshold : ℚ) : List Nat :=
  (keptEntries bboxes scores score_threshold nms_threshold).map Scored.idx

/-! ## Assembly of the result (lines 120-131) and the whole call -/

/-- The `vector<float>` built at lines 122-129 for the index `idx`: the class
id and the four `int` fields of the box are cast to `float`, the confidence is
a `float` already; a subscript outside one of the three vectors gives `none`. -/
def mkDetection (c : Candidates) (idx : Nat) : Option (List ℚ) := do
  let classId ← c.classIds[idx]?
  let confidence ← c.confidences[idx]?
  let box ← c.boxes[idx]?
  some [toFloat (classId : ℚ), confidence, toFloat (box.x : ℚ), toFloat (box.y : ℚ),
        toFloat (box.width : ℚ), toFloat (box.height : ℚ)]

/-- Member function `AIScanner::detectObjects` (lines 63-138). `outputs` is what the forward
pass of the network returned for the frame. -/
def detectObjects (s : AIScanner) (frame : Frame)
    (outputs : List (List (List ℚ))) : Option (List (List ℚ)) :=
  if s.net.empty then
    some []
  else do
    let c ← decode s.confidenceThreshold frame outputs
    let indices := NMSBoxes c.boxes c.confidences s.confidenceThreshold s.nmsThreshold
    indices.mapM (mkDetection c)

/-! ## Rendering (lines 141-164) -/

/-- What `drawDetections` hands to the drawing library for one detection: the
corner of the box, its size, and the two arguments of the label format
`"%s: %.2f"`. -/
structure Overlay where
  x : Int
  y : Int
  width : Int
  height : Int
  name : String
  confidence : ℚ
deriving DecidableEq, Repr

/-- The box of a detection as lines 145-148 read it back:
`(int)detection[2]` to `(int)detection[5]`. -/
def detectionBox (detection : List ℚ) : Option Rect := do
  let x := toInt (← detection[2]?)
  let y := toInt (← detection[3]?)
  let width := toInt (← detection[4]?)
  let height := toInt (← detection[5]?)
  some { x := x, y := y, width := width, height := height }

/-- The body of the loop of `AIScanner::drawDetections` (lines 143-154) for one
detection. The name is `classes[classId]`: the subscript is converted to
`size_t` and is not compared with the size of the catalog. -/
def drawDetection (s : AIScanner) (detection : List ℚ) : Option Overlay := do
  let classId := toInt (← detection[0]?)
  let confidence ← detection[1]?
  let x := toInt (← detection[2]?)
  let y := toInt (← detection[3]?)
  let width := toInt (← detection[4]?)
  let height := toInt (← detection[5]?)
  let name ← s.classes[toSizeT classId]?
  some { x := x, y := y, width := width, height := height,
         name := name, confidence := confidence }

/-- Member function `AIScanner::drawDetections` (lines 141-164): one overlay per detection, in
order; `none` when a subscript falls outside its vector. -/
def drawDetections (s : AIScanner) (detections : List (List ℚ)) :
    Option (List Overlay) :=
  detections.mapM (drawDetection s)

/-! ## The public interface as a transition system -/

/-- A call of one of the public member functions of `AIScanner` (lines 20-177),
with its arguments; for `loadModel` the outcome of `readNet`, for
`detectObjects` the result of the forward pass. -/
inductive Call where
  | loadModel (readNet : Option Net)
  | loadClasses
  | detectObjects (frame : Frame) (outputs : List (List (List ℚ)))
  | drawDetections (detections : List (List ℚ))
  | setConfidenceThreshold (threshold : ℚ)
  | getClassName (classId : Int)

/-- The fields of the scanner after the call. `detectObjects`,
`drawDetections` and `getClassName` assign no field. -/
def Call.run (s : AIScanner) : Call → AIScanner
  | .loadModel readNet => (Scanner.loadModel s readNet).1
  | .loadClasses => Scanner.loadClasses s
  | .detectObjects _ _ => s
  | .drawDetections _ => s
  | .setConfidenceThreshold threshold => Scanner.setConfidenceThreshold s threshold
  | .getClassName _ => s

/-- The scanner after construction and a sequence of public calls. -/
def runCalls (calls : List Call) : AIScanner :=
  calls.foldl Call.run AIScanner.new

/-- The scanner after construction and a `loadModel` whose `readNet` returned
a non-empty network. -/
def loadedScanner : AIScanner :=
  (loadModel AIScanner.new (some { empty := false })).1

/-- A row of `4 + 80` elements: the box fields (0.5, 0.5, 0.25, 0.25), then 80
further columns of which the one at index 5 holds `score`, the others 0. -/
def wideRow (score : ℚ) : List ℚ :=
  [1 / 2, 1 / 2, 1 / 4, 1 / 4, 0, score] ++ List.replicate 78 0

/-- A row of 6 elements, not the `4 + 80` of the catalog. -/
def shortRow : List ℚ := [1 / 2, 1 / 2, 1 / 4, 1 / 4, 0, 9 / 10]

/-- Three output matrices of one row each: 84 columns, 6 columns, 84 columns;
every row has a score above 0.5. -/
def mixedOutputs : List (List (List ℚ)) :=
  [[wideRow (9 / 10)], [shortRow], [wideRow (4 / 5)]]

/-- The two matrices of 84 columns of `mixedOutputs`, without the short one. -/
def wideOutputs : List (List (List ℚ)) :=
  [[wideRow (9 / 10)], [wideRow (4 / 5)]]

/-! ## The catalog and the thresholds under public calls -/

theorem run_classes (s : AIScanner) (c : Call) (h : s.classes = cocoClasses) :
    (c.run s).classes = cocoClasses := by
  cases c with
  | loadModel r => cases r <;> simpa [Call.run, loadModel] using h
  | loadClasses => rfl
  | detectObjects _ _ => exact h
  | drawDetections _ => exact h
  | setConfidenceThreshold _ => exact h
  | getClassName _ => exact h

theorem foldl_run_classes (calls : List Call) :
    ∀ s : AIScanner, s.classes = cocoClasses →
      (calls.foldl Call.run s).classes = cocoClasses := by
  induction calls with
  | nil => intro s h; exact h
  | cons c cs ih => intro s h; exact ih _ (run_classes s c h)

theorem runCalls_classes (calls : List Call) :
    (runCalls calls).classes = cocoClasses :=
  foldl_run_classes calls _ rfl

theorem toSizeT_of_nonneg (i : Int) (h0 : 0 ≤ i) (h1 : i < 2 ^ 64) :
    toSizeT i = i.toNat := by
  unfold toSizeT
  rw [Int.emod_eq_of_lt h0 h1]

theorem cocoClasses_length : cocoClasses.length = 80 := rfl

theorem getClassName_in_range (s : AIScanner) (hs : s.classes = cocoClasses)
    (k : Nat) (h : k < cocoClasses.length) :
    getClassName s (k : Int) = cocoClasses.get ⟨k, h⟩ := by
  have h80 : k < 80 := h
  have hz : toSizeT (k : Int) = k := by
    rw [toSizeT_of_nonneg _ (by omega) (by omega)]; simp
  have hlt : toSizeT (k : Int) < s.classes.length := by rw [hz, hs]; exact h
  unfold getClassName
  rw [dif_pos ⟨by omega, hlt⟩]
  simp only [List.get_eq_getElem, hz, hs]

theorem getClassName_out_of_range (s : AIScanner) (hs : s.classes = cocoClasses)
    (classId : Int) (hint : IsInt classId) (hr : ¬ (0 ≤ classId ∧ classId < 80)) :
    getClassName s classId = "Unknown" := by
  unfold getClassName
  by_cases h0 : 0 ≤ classId
  · have hge : ¬ toSizeT classId < s.classes.length := by
      rw [hs, cocoClasses_length, toSizeT_of_nonneg classId h0 (by unfold IsInt at hint; omega)]
      omega
    rw [dif_neg (fun h => hge h.2)]
  · rw [dif_neg (fun h => h0 h.1)]

/-- Claim C5. `getClassName` is total on the scanner reached by any sequence of
public calls: for a class id `k` with `0 ≤ k < 80` it returns the catalog entry
at index `k` (`0` gives "person", `79` gives "toothbrush"), and for every other
`int`, negative ids and `999` included, it returns "Unknown". -/
theorem getClassName_total (calls : List Call) :
    cocoClasses.length = 80 ∧
    (∀ (k : Nat) (h : k < cocoClasses.length),
      getClassName (runCalls calls) (k : Int) = cocoClasses.get ⟨k, h⟩) ∧
    (∀ classId : Int, IsInt classId → ¬ (0 ≤ classId ∧ classId < 80) →
      getClassName (runCalls calls) classId = "Unknown") ∧
    getClassName (runCalls calls) 0 = "person" ∧
    getClassName (runCalls calls) 79 = "toothbrush" ∧
    getClassName (runCalls calls) 999 = "Unknown" ∧
    getClassName (runCalls calls) (-1) = "Unknown" := by
  have hs := runCalls_classes calls
  refine ⟨rfl, fun k h => getClassName_in_range _ hs k h,
    fun c hc hr => getClassName_out_of_range _ hs c hc hr, ?_, ?_, ?_, ?_⟩
  · exact getClassName_in_range _ hs 0 (by decide)
  · exact getClassName_in_range _ hs 79 (by decide)
  · exact getClassName_out_of_range _ hs 999 (by decide) (by decide)
  · exact getClassName_out_of_range _ hs (-1) (by decide) (by decide)

/-- Witness of C5 after `setConfidenceThreshold(0.3)` and a failed `loadModel`:
the ids `0`, `79`, `80`, `-5` and the least `int`. -/
theorem getClassName_total_witness :
    getClassName (runCalls [.setConfidenceThreshold (3 / 10), .loadModel none]) 0 = "person" ∧
    getClassName (runCalls [.setConfidenceThreshold (3 / 10), .loadModel none]) 79
      = "toothbrush" ∧
    getClassName (runCalls [.setConfidenceThreshold (3 / 10), .loadModel none]) 80
      = "Unknown" ∧
    getClassName (runCalls [.setConfidenceThreshold (3 / 10), .loadModel none]) (-5)
      = "Unknown" ∧
    getClassName (runCalls [.setConfidenceThreshold (3 / 10), .loadModel none]) (-2147483648)
      = "Unknown" :=
  have h := getClassName_total [.setConfidenceThreshold (3 / 10), .loadModel none]
  ⟨h.2.2.2.1, h.2.2.2.2.1,
   h.2.2.1 80 (by decide) (by decide),
   h.2.2.1 (-5) (by decide) (by decide),
   h.2.2.1 (-2147483648) (by decide) (by decide)⟩

/-- Claim C6 (evaluation of the code). For the detection
`{999, 0.9, 0, 0, 10, 10}` the renderer takes `classes[999]` in a catalog of 80
entries: the subscript is outside the vector and no label is built, while
`getClassName(999)` on the same scanner answers "Unknown"; likewise for the
class id `-1`. An in-range id gets its catalog entry. -/
theorem drawDetections_out_of_range :
    drawDetections AIScanner.new [[999, 9 / 10, 0, 0, 10, 10]] = none ∧
    getClassName AIScanner.new 999 = "Unknown" ∧
    drawDetections AIScanner.new [[-1, 9 / 10, 0, 0, 10, 10]] = none ∧
    getClassName AIScanner.new (-1) = "Unknown" ∧
    drawDetections AIScanner.new [[79, 1, 0, 0, 10, 10]] =
      some [{ x := 0, y := 0, width := 10, height := 10,
              name := "toothbrush", confidence := 1 }] := by
  have h999 : drawDetection AIScanner.new [999, 9 / 10, 0, 0, 10, 10] = none := by
    simp [drawDetection, toInt, toSizeT, AIScanner.new, loadClasses, cocoClasses]
  have hneg : drawDetection AIScanner.new [-1, 9 / 10, 0, 0, 10, 10] = none := by
    simp [drawDetection, toInt, toSizeT, AIScanner.new, loadClasses, cocoClasses]
  have h79 : drawDetection AIScanner.new [79, 1, 0, 0, 10, 10] =
      some { x := 0, y := 0, width := 10, height := 10,
             name := "toothbrush", confidence := 1 } := by
    simp [drawDetection, toInt, toSizeT, AIScanner.new, loadClasses, cocoClasses]
  refine ⟨?_, ?_, ?_, ?_, ?_⟩
  · rw [drawDetections, List.mapM_cons, h999]; rfl
  · exact getClassName_out_of_range _ rfl 999 (by decide) (by decide)
  · rw [drawDetections, List.mapM_cons, hneg]; rfl
  · exact getClassName_out_of_range _ rfl (-1) (by decide) (by decide)
  · rw [drawDetections, List.mapM_cons, h79, List.mapM_nil]; rfl

theorem tdiv_num_den (v : ℚ) :
    Int.tdiv v.num v.den = if 0 ≤ v then ⌊v⌋ else ⌈v⌉ := by
  have hden : (0 : Int) ≤ (v.den : Int) := Int.ofNat_nonneg _
  split_ifs with h
  · rw [Int.tdiv_eq_ediv (Rat.num_nonneg.mpr h) hden, Rat.floor_def]
  · have hneg : 0 ≤ -v := by linarith [not_le.mp h]
    have h1 : ⌈v⌉ = -⌊-v⌋ := by rw [Int.floor_neg, neg_neg]
    rw [h1, Rat.floor_def, Rat.num_neg_eq_neg_num, Rat.den_neg_eq_den,
      ← Int.tdiv_eq_ediv (by simpa using Rat.num_nonneg.mpr hneg) hden, Int.neg_tdiv, neg_neg]

/-- Within the range of `int` the cast is truncation toward zero. -/
theorem toInt_eq_trunc (v : ℚ) (h : IsInt (trunc v)) : toInt v = trunc v := by
  unfold trunc at h ⊢
  unfold toInt
  simp only [tdiv_num_den]
  exact if_pos h

theorem roundHalfEven_intCast (z : Int) : roundHalfEven (z : ℚ) = z := by
  simp [roundHalfEven]

theorem roundHalfEven_of_lt (x : ℚ) (f : Int) (h1 : (f : ℚ) ≤ x) (h2 : x < f + 1 / 2) :
    roundHalfEven x = f := by
  have hf : ⌊x⌋ = f := Int.floor_eq_iff.mpr ⟨h1, by linarith⟩
  unfold roundHalfEven
  simp only [hf]
  rw [if_pos (by linarith)]

theorem roundHalfEven_of_gt (x : ℚ) (f : Int) (h1 : (f : ℚ) + 1 / 2 < x) (h2 : x < f + 1) :
    roundHalfEven x = f + 1 := by
  have hf : ⌊x⌋ = f := Int.floor_eq_iff.mpr ⟨by linarith, h2⟩
  unfold roundHalfEven
  simp only [hf]
  rw [if_neg (by linarith), if_pos (by linarith)]

theorem roundHalfEven_tie (x : ℚ) (f : Int) (h : x = f + 1 / 2) :
    roundHalfEven x = if f % 2 = 0 then f else f + 1 := by
  have hf : ⌊x⌋ = f := Int.floor_eq_iff.mpr ⟨by linarith, by linarith⟩
  unfold roundHalfEven
  simp only [hf]
  rw [if_neg (by linarith), if_neg (by linarith)]

theorem f32Exponent_eq (q : ℚ) (e : Int) (he : -126 ≤ e)
    (h1 : (2 : ℚ) ^ e ≤ |q|) (h2 : |q| < (2 : ℚ) ^ (e + 1)) : f32Exponent q = e := by
  have hpos : 0 < |q| := lt_of_lt_of_le (by positivity) h1
  have hle : e ≤ Int.log 2 |q| :=
    (Int.zpow_le_iff_le_log (by norm_num) hpos).mp (by exact_mod_cast h1)
  have hlt : Int.log 2 |q| < e + 1 :=
    (Int.lt_zpow_iff_log_lt (by norm_num) hpos).mp (by exact_mod_cast h2)
  unfold f32Exponent
  omega

theorem toFloat_eq (q : ℚ) (e : Int) (he : -126 ≤ e)
    (h1 : (2 : ℚ) ^ e ≤ |q|) (h2 : |q| < (2 : ℚ) ^ (e + 1)) :
    toFloat q = roundHalfEven (q / 2 ^ (e - 23)) * 2 ^ (e - 23) := by
  unfold toFloat
  rw [f32Exponent_eq q e he h1 h2]

theorem f32Exponent_le (m k : Int) (hne : m ≠ 0) (hm : |m| < 2 ^ 24) (hk : -149 ≤ k) :
    f32Exponent ((m : ℚ) * 2 ^ k) - 23 ≤ k := by
  unfold f32Exponent
  by_cases hm0 : m = 0
  · exact absurd hm0 hne
  · have hpos : 0 < |(m : ℚ) * 2 ^ k| := by
      apply abs_pos.mpr
      apply mul_ne_zero
      · exact_mod_cast hm0
      · positivity
    have hlt : |(m : ℚ) * 2 ^ k| < (2 : ℚ) ^ (24 + k) := by
      rw [abs_mul, abs_of_pos (by positivity : (0 : ℚ) < 2 ^ k), zpow_add₀ (by norm_num)]
      apply mul_lt_mul_of_pos_right _ (by positivity)
      have : ((|m| : Int) : ℚ) < ((2 ^ 24 : Int) : ℚ) := by exact_mod_cast hm
      push_cast at this
      norm_num at this ⊢
      exact this
    have hlog : Int.log 2 |(m : ℚ) * 2 ^ k| < 24 + k :=
      (Int.lt_zpow_iff_log_lt (by norm_num) hpos).mp (by exact_mod_cast hlt)
    omega

/-- A binary32 value is left as it is. -/
theorem toFloat_dyadic (m k : Int) (hm : |m| < 2 ^ 24) (hk : -149 ≤ k) :
    toFloat ((m : ℚ) * 2 ^ k) = (m : ℚ) * 2 ^ k := by
  by_cases hm0 : m = 0
  · subst hm0
    simp [toFloat, roundHalfEven]
  have hle := f32Exponent_le m k hm0 hm hk
  unfold toFloat
  set e := f32Exponent ((m : ℚ) * 2 ^ k) - 23 with he
  obtain ⟨d, hd⟩ : ∃ d : Nat, k = e + d := ⟨(k - e).toNat, by omega⟩
  have hsplit : (m : ℚ) * 2 ^ k = ((m * 2 ^ d : Int) : ℚ) * 2 ^ e := by
    rw [hd, zpow_add₀ (by norm_num)]
    push_cast
    rw [zpow_natCast]
    ring
  have hdiv : (m : ℚ) * 2 ^ k / 2 ^ e = ((m * 2 ^ d : Int) : ℚ) := by
    rw [hsplit]
    field_simp
  rw [hdiv, roundHalfEven_intCast, ← hsplit]

theorem toFloat_intCast (n : Int) (h : |n| ≤ 2 ^ 24) : toFloat (n : ℚ) = n := by
  by_cases hlt : |n| < 2 ^ 24
  · simpa using toFloat_dyadic n 0 hlt (by norm_num)
  · have heq : |n| = 2 ^ 24 := le_antisymm h (not_lt.mp hlt)
    have h2 : |(n / 2 : Int)| < 2 ^ 24 := by
      rcases abs_cases n with ⟨h1, _⟩ | ⟨h1, _⟩ <;> rw [abs_lt] <;> omega
    have hn : n = (n / 2) * 2 := by
      rcases abs_cases n with ⟨h1, _⟩ | ⟨h1, _⟩ <;> omega
    have := toFloat_dyadic (n / 2) 1 h2 (by norm_num)
    have hc : ((n / 2 : Int) : ℚ) * 2 ^ (1 : Int) = (n : ℚ) := by
      conv_rhs => rw [hn]
      push_cast
      norm_num
    rwa [hc] at this

theorem toInt_intCast (n : Int) (h : IsInt n) : toInt (n : ℚ) = n := by
  have ht : Int.tdiv (n : ℚ).num (n : ℚ).den = n := by simp
  unfold toInt
  simp only [ht]
  exact if_pos h

theorem wrapInt_of_isInt (z : Int) (h : IsInt z) : wrapInt z = z := by
  unfold IsInt at h
  unfold wrapInt
  omega

theorem wrapInt_isInt (z : Int) : IsInt (wrapInt z) := by
  unfold IsInt wrapInt
  omega

theorem toInt_isInt (v : ℚ) : IsInt (toInt v) := by
  unfold toInt IsInt
  simp only
  split_ifs with h
  · exact h
  · norm_num

theorem toFloat_fits (n : Int) (h : FitsFloat n) : toFloat (n : ℚ) = n :=
  toFloat_intCast n (abs_le.mpr h)

theorem toInt_fits (n : Int) (h : FitsFloat n) : toInt (n : ℚ) = n := by
  apply toInt_intCast
  unfold FitsFloat at h
  unfold IsInt
  omega

theorem toFloat_binary32 (q : ℚ) (h : IsBinary32 q) : toFloat q = q := by
  obtain ⟨m, k, hm, hk, -, rfl⟩ := h
  exact toFloat_dyadic m k hm hk

/-- The rounding moves a value by at most half the spacing. -/
theorem roundHalfEven_near (x : ℚ) : |(roundHalfEven x : ℚ) - x| ≤ 1 / 2 := by
  have h1 : (⌊x⌋ : ℚ) ≤ x := Int.floor_le x
  have h2 : x < ⌊x⌋ + 1 := Int.lt_floor_add_one x
  unfold roundHalfEven
  simp only
  split_ifs with ha hb hc
  · rw [abs_le]; constructor <;> linarith
  · rw [abs_le]; push_cast; constructor <;> linarith
  · rw [abs_le]; constructor <;> linarith
  · rw [abs_le]; push_cast; constructor <;> linarith

theorem toFloat_near (q : ℚ) :
    |toFloat q - q| ≤ 2 ^ (f32Exponent q - 23) / 2 := by
  have hpos : (0 : ℚ) < 2 ^ (f32Exponent q - 23) := by positivity
  have hq : q = q / 2 ^ (f32Exponent q - 23) * 2 ^ (f32Exponent q - 23) := by
    field_simp
  have key := roundHalfEven_near (q / 2 ^ (f32Exponent q - 23))
  unfold toFloat
  calc |(roundHalfEven (q / 2 ^ (f32Exponent q - 23)) : ℚ) * 2 ^ (f32Exponent q - 23) - q|
      = |((roundHalfEven (q / 2 ^ (f32Exponent q - 23)) : ℚ)
            - q / 2 ^ (f32Exponent q - 23)) * 2 ^ (f32Exponent q - 23)| := by
        congr 1
        conv_lhs => rw [hq]
        field_simp
    _ = |(roundHalfEven (q / 2 ^ (f32Exponent q - 23)) : ℚ)
            - q / 2 ^ (f32Exponent q - 23)| * 2 ^ (f32Exponent q - 23) := by
        rw [abs_mul, abs_of_pos hpos]
    _ ≤ 1 / 2 * 2 ^ (f32Exponent q - 23) := mul_le_mul_of_nonneg_right key hpos.le
    _ = 2 ^ (f32Exponent q - 23) / 2 := by ring

/-- Every field of a decoded box is a value of `int`. -/
theorem decodeBox_isInt (frame : Frame) (d0 d1 d2 d3 : ℚ) :
    IsInt (decodeBox frame d0 d1 d2 d3).x ∧ IsInt (decodeBox frame d0 d1 d2 d3).y ∧
    IsInt (decodeBox frame d0 d1 d2 d3).width ∧
    IsInt (decodeBox frame d0 d1 d2 d3).height :=
  ⟨wrapInt_isInt _, wrapInt_isInt _, toInt_isInt _, toInt_isInt _⟩

/-- The box once the two frame sizes and the four products are known as
`float` values. -/
theorem decodeBox_eval (frame : Frame) (d0 d1 d2 d3 W H : ℚ) (a b c d : Int)
    (hW : toFloat (frame.cols : ℚ) = W) (hH : toFloat (frame.rows : ℚ) = H)
    (ha : toFloat (d0 * W) = a) (hb : toFloat (d1 * H) = b)
    (hc : toFloat (d2 * W) = c) (hd : toFloat (d3 * H) = d)
    (hia : IsInt a) (hib : IsInt b) (hic : IsInt c) (hid : IsInt d)
    (hx : IsInt (a - Int.tdiv c 2)) (hy : IsInt (b - Int.tdiv d 2)) :
    decodeBox frame d0 d1 d2 d3 =
      { x := a - Int.tdiv c 2, y := b - Int.tdiv d 2, width := c, height := d } := by
  unfold decodeBox
  simp only [hW, hH, ha, hb, hc, hd, toInt_intCast _ hia,
    toInt_intCast _ hib, toInt_intCast _ hic, toInt_intCast _ hid,
    wrapInt_of_isInt _ hx, wrapInt_of_isInt _ hy]

/-- The box of a row whose four products are integers that `float` holds
exactly. -/
theorem decodeBox_of_int (frame : Frame) (d0 d1 d2 d3 : ℚ) (a b c d : Int)
    (hW : toFloat (frame.cols : ℚ) = frame.cols) (hH : toFloat (frame.rows : ℚ) = frame.rows)
    (ha : d0 * frame.cols = a) (hb : d1 * frame.rows = b)
    (hc : d2 * frame.cols = c) (hd : d3 * frame.rows = d)
    (hfa : toFloat (a : ℚ) = a) (hfb : toFloat (b : ℚ) = b)
    (hfc : toFloat (c : ℚ) = c) (hfd : toFloat (d : ℚ) = d)
    (hia : IsInt a) (hib : IsInt b) (hic : IsInt c) (hid : IsInt d)
    (hx : IsInt (a - Int.tdiv c 2)) (hy : IsInt (b - Int.tdiv d 2)) :
    decodeBox frame d0 d1 d2 d3 =
      { x := a - Int.tdiv c 2, y := b - Int.tdiv d 2, width := c, height := d } := by
  unfold decodeBox
  simp only [hW, hH, ha, hb, hc, hd, hfa, hfb, hfc, hfd, toInt_intCast _ hia,
    toInt_intCast _ hib, toInt_intCast _ hic, toInt_intCast _ hid,
    wrapInt_of_isInt _ hx, wrapInt_of_isInt _ hy]

theorem fitsFloat_isInt (n : Int) (h : FitsFloat n) : IsInt n := by
  unfold FitsFloat at h
  unfold IsInt
  omega

/-- The same when the frame and the four products are of magnitude at most
`2 ^ 24`. -/
theorem decodeBox_small (frame : Frame) (d0 d1 d2 d3 : ℚ) (a b c d : Int)
    (hW : FitsFloat frame.cols) (hH : FitsFloat frame.rows)
    (ha : d0 * frame.cols = a) (hb : d1 * frame.rows = b)
    (hc : d2 * frame.cols = c) (hd : d3 * frame.rows = d)
    (hfa : FitsFloat a) (hfb : FitsFloat b) (hfc : FitsFloat c) (hfd : FitsFloat d)
    (hx : IsInt (a - Int.tdiv c 2)) (hy : IsInt (b - Int.tdiv d 2)) :
    decodeBox frame d0 d1 d2 d3 =
      { x := a - Int.tdiv c 2, y := b - Int.tdiv d 2, width := c, height := d } :=
  decodeBox_of_int frame d0 d1 d2 d3 a b c d (toFloat_fits _ hW) (toFloat_fits _ hH)
    ha hb hc hd (toFloat_fits _ hfa) (toFloat_fits _ hfb) (toFloat_fits _ hfc)
    (toFloat_fits _ hfd) (fitsFloat_isInt _ hfa) (fitsFloat_isInt _ hfb)
    (fitsFloat_isInt _ hfc) (fitsFloat_isInt _ hfd) hx hy

/-! ## The maximum class score and its position -/

theorem maxLocFrom_spec (l : List ℚ) :
    ∀ (best : ℚ) (bestIdx i : Nat),
      best ≤ (maxLocFrom best bestIdx i l).1 ∧
      (∀ v ∈ l, v ≤ (maxLocFrom best bestIdx i l).1) ∧
      (maxLocFrom best bestIdx i l = (best, bestIdx) ∨
        ∃ k, (maxLocFrom best bestIdx i l).2 = i + k ∧
          l[k]? = some (maxLocFrom best bestIdx i l).1 ∧
          best < (maxLocFrom best bestIdx i l).1 ∧
          ∀ j < k, ∀ v, l[j]? = some v → v < (maxLocFrom best bestIdx i l).1) := by
  induction l with
  | nil => intro best bestIdx i; simp [maxLocFrom]
  | cons v rest ih =>
    intro best bestIdx i
    by_cases hv : v > best
    · have e : maxLocFrom best bestIdx i (v :: rest) = maxLocFrom v i (i + 1) rest := by
        simp [maxLocFrom, hv]
      rw [e]
      obtain ⟨h1, h2, h3⟩ := ih v i (i + 1)
      refine ⟨le_trans (le_of_lt hv) h1, ?_, Or.inr ?_⟩
      · intro u hu
        rcases List.mem_cons.mp hu with rfl | hu
        · exact h1
        · exact h2 u hu
      · rcases h3 with h3 | ⟨k, hk1, hk2, hk3, hk4⟩
        · refine ⟨0, by rw [h3]; simp, by rw [h3]; simp, by rw [h3]; exact hv, ?_⟩
          intro j hj; omega
        · refine ⟨k + 1, by rw [hk1]; omega, by simpa using hk2, lt_trans hv hk3, ?_⟩
          intro j hj u hu
          cases j with
          | zero => simp at hu; rw [← hu]; exact hk3
          | succ j => exact hk4 j (by omega) u (by simpa using hu)
    · have e : maxLocFrom best bestIdx i (v :: rest)
          = maxLocFrom best bestIdx (i + 1) rest := by
        simp [maxLocFrom, hv]
      rw [e]
      obtain ⟨h1, h2, h3⟩ := ih best bestIdx (i + 1)
      refine ⟨h1, ?_, ?_⟩
      · intro u hu
        rcases List.mem_cons.mp hu with rfl | hu
        · exact le_trans (not_lt.mp hv) h1
        · exact h2 u hu
      · rcases h3 with h3 | ⟨k, hk1, hk2, hk3, hk4⟩
        · exact Or.inl h3
        · refine Or.inr ⟨k + 1, by rw [hk1]; omega, by simpa using hk2, hk3, ?_⟩
          intro j hj u hu
          cases j with
          | zero => simp at hu; rw [← hu]; exact lt_of_le_of_lt (not_lt.mp hv) hk3
          | succ j => exact hk4 j (by omega) u (by simpa using hu)

theorem minMaxLoc_spec (l : List ℚ) (hl : l ≠ []) :
    ∃ m k, minMaxLoc l = some (m, k) ∧ l[k]? = some m ∧ (∀ v ∈ l, v ≤ m) ∧
      ∀ j < k, ∀ v, l[j]? = some v → v < m := by
  cases l with
  | nil => exact absurd rfl hl
  | cons v rest =>
    obtain ⟨h1, h2, h3⟩ := maxLocFrom_spec rest v 0 1
    refine ⟨(maxLocFrom v 0 1 rest).1, (maxLocFrom v 0 1 rest).2, rfl, ?_, ?_, ?_⟩
    · rcases h3 with h3 | ⟨k, hk1, hk2, _, _⟩
      · rw [h3]; simp
      · rw [hk1, Nat.add_comm]; simpa using hk2
    · intro u hu
      rcases List.mem_cons.mp hu with rfl | hu
      · exact h1
      · exact h2 u hu
    · rcases h3 with h3 | ⟨k, hk1, _, hk3, hk4⟩
      · rw [h3]; intro j hj; simp at hj
      · intro j hj u hu
        cases j with
        | zero => simp at hu; rw [← hu]; exact hk3
        | succ j => exact hk4 j (by omega) u (by simpa using hu)

/-- The maximum of a list is unique. -/
theorem max_unique (l : List ℚ) (m m' : ℚ) (hm : m ∈ l) (hmax : ∀ v ∈ l, v ≤ m)
    (hm' : m' ∈ l) (hmax' : ∀ v ∈ l, v ≤ m') : m = m' :=
  le_antisymm (hmax' m hm) (hmax m' hm')

/-! ## One row of the decode loop -/

theorem decodeRow_eq (t : ℚ) (frame : Frame) (acc : Candidates)
    (cx cy w h o : ℚ) (scores : List ℚ) (m : ℚ) (k : Nat)
    (hmm : minMaxLoc scores = some (m, k)) :
    decodeRow t frame acc (cx :: cy :: w :: h :: o :: scores) =
      if m > t then
        some { classIds := acc.classIds ++ [(k : Int)],
               confidences := acc.confidences ++ [m],
               boxes := acc.boxes ++ [decodeBox frame cx cy w h] }
      else some acc := by
  simp [decodeRow, colRange5, hmm]

theorem decodeRow_admit (t : ℚ) (frame : Frame) (acc : Candidates)
    (cx cy w h o : ℚ) (scores : List ℚ) (m : ℚ) (k : Nat) (box : Rect)
    (hmm : minMaxLoc scores = some (m, k)) (hmt : t < m)
    (hbox : decodeBox frame cx cy w h = box) :
    decodeRow t frame acc (cx :: cy :: w :: h :: o :: scores) =
      some { classIds := acc.classIds ++ [(k : Int)],
             confidences := acc.confidences ++ [m],
             boxes := acc.boxes ++ [box] } := by
  rw [decodeRow_eq t frame acc cx cy w h o scores m k hmm, if_pos hmt, hbox]

/-- A row of more than 5 columns splits into the four box fields, column 4 and
a non-empty list of class scores. -/
theorem row_split (row : List ℚ) (hlen : 5 < row.length) :
    ∃ cx cy w h o s scores, row = cx :: cy :: w :: h :: o :: s :: scores := by
  match row, hlen with
  | cx :: cy :: w :: h :: o :: s :: scores, _ => exact ⟨cx, cy, w, h, o, s, scores, rfl⟩

theorem decodeRow_single (t : ℚ) (frame : Frame) (row : List ℚ) (hlen : 5 < row.length) :
    ∃ c, decodeRow t frame Candidates.empty row = some c ∧
      (∀ acc, decodeRow t frame acc row = some (acc.append c)) ∧
      c.confidences.length = (if ∃ v ∈ row.drop 5, t < v then 1 else 0) := by
  obtain ⟨cx, cy, w, h, o, s, scores, rfl⟩ := row_split row hlen
  obtain ⟨m, k, hmm, hk, hmax, -⟩ := minMaxLoc_spec (s :: scores) (by simp)
  have hmem : m ∈ s :: scores := List.getElem?_mem hk
  have hiff : (∃ v ∈ (cx :: cy :: w :: h :: o :: s :: scores).drop 5, t < v) ↔ m > t := by
    simp only [List.drop_succ_cons, List.drop_zero]
    constructor
    · rintro ⟨v, hv, htv⟩; exact lt_of_lt_of_le htv (hmax v hv)
    · intro hmt; exact ⟨m, hmem, hmt⟩
  by_cases hmt : m > t
  · refine ⟨{ classIds := [(k : Int)], confidences := [m],
              boxes := [decodeBox frame cx cy w h] }, ?_, ?_, ?_⟩
    · rw [decodeRow_eq t frame _ cx cy w h o _ m k hmm, if_pos hmt]; rfl
    · intro acc
      rw [decodeRow_eq t frame _ cx cy w h o _ m k hmm, if_pos hmt]; rfl
    · rw [if_pos (hiff.mpr hmt)]; rfl
  · refine ⟨Candidates.empty, ?_, ?_, ?_⟩
    · rw [decodeRow_eq t frame _ cx cy w h o _ m k hmm, if_neg hmt]
    · intro acc
      rw [decodeRow_eq t frame _ cx cy w h o _ m k hmm, if_neg hmt]
      simp [Candidates.append, Candidates.empty]
    · rw [if_neg (fun hex => hmt (hiff.mp hex))]; rfl

/-! ## The decode loops -/

theorem foldlM_rows (t : ℚ) (frame : Frame) (rows : List (List ℚ))
    (hrows : ∀ row ∈ rows, 5 < row.length) :
    ∃ cs : List Candidates,
      List.Forall₂ (fun row c => decodeRow t frame Candidates.empty row = some c ∧
        c.confidences.length = (if ∃ v ∈ row.drop 5, t < v then 1 else 0)) rows cs ∧
      ∀ acc, rows.foldlM (decodeRow t frame) acc = some (cs.foldl Candidates.append acc) := by
  induction rows with
  | nil => exact ⟨[], List.Forall₂.nil, fun acc => rfl⟩
  | cons row rows ih =>
    obtain ⟨c, hc1, hc2, hc3⟩ := decodeRow_single t frame row (hrows row (List.mem_cons_self _ _))
    obtain ⟨cs, hcs1, hcs2⟩ := ih (fun r hr => hrows r (List.mem_cons_of_mem _ hr))
    refine ⟨c :: cs, List.Forall₂.cons ⟨hc1, hc3⟩ hcs1, ?_⟩
    intro acc
    rw [List.foldlM_cons, hc2 acc]
    exact hcs2 _

theorem foldlM_outputs (t : ℚ) (frame : Frame) (outputs : List (List (List ℚ)))
    (hrows : ∀ output ∈ outputs, ∀ row ∈ output, 5 < row.length) :
    ∃ cs : List Candidates,
      List.Forall₂ (fun row c => decodeRow t frame Candidates.empty row = some c ∧
        c.confidences.length = (if ∃ v ∈ row.drop 5, t < v then 1 else 0))
        outputs.flatten cs ∧
      ∀ acc, outputs.foldlM
          (fun acc output => output.foldlM (decodeRow t frame) acc) acc
        = some (cs.foldl Candidates.append acc) := by
  induction outputs with
  | nil => exact ⟨[], List.Forall₂.nil, fun acc => rfl⟩
  | cons output outputs ih =>
    obtain ⟨cs1, h11, h12⟩ := foldlM_rows t frame output
      (hrows output (List.mem_cons_self _ _))
    obtain ⟨cs2, h21, h22⟩ := ih (fun o ho => hrows o (List.mem_cons_of_mem _ ho))
    refine ⟨cs1 ++ cs2, ?_, ?_⟩
    · rw [List.flatten_cons]
      exact List.rel_append h11 h21
    · intro acc
      rw [List.foldlM_cons, h12 acc, List.foldl_append]
      exact h22 _

theorem length_foldl_append (cs : List Candidates) :
    ∀ acc : Candidates, (cs.foldl Candidates.append acc).confidences.length =
      acc.confidences.length + (cs.map fun c => c.confidences.length).sum := by
  induction cs with
  | nil => intro acc; simp
  | cons c cs ih =>
    intro acc
    rw [List.foldl_cons, ih]
    simp [Candidates.append, Nat.add_assoc]

theorem sum_forall₂_filter (t : ℚ) (rows : List (List ℚ)) (cs : List Candidates) (f : List ℚ → Candidates → Prop)
    (hf : ∀ row c, f row c → c.confidences.length
      = (if ∃ v ∈ row.drop 5, t < v then 1 else 0))
    (h : List.Forall₂ f rows cs) :
    (cs.map fun c => c.confidences.length).sum =
      (rows.filter fun row => (row.drop 5).any fun v => decide (t < v)).length := by
  induction h with
  | nil => rfl
  | cons hrc _ ih =>
    rename_i row c rows cs _
    rw [List.map_cons, List.sum_cons, ih, hf row c hrc, List.filter_cons]
    by_cases hex : ∃ v ∈ row.drop 5, t < v
    · have : ((row.drop 5).any fun v => decide (t < v)) = true := by
        simpa using hex
      rw [if_pos hex, this]; simp [Nat.add_comm]
    · have : ((row.drop 5).any fun v => decide (t < v)) = false := by
        simpa using hex
      rw [if_neg hex, this]; simp

/-- The invariant of the three vectors: equal lengths, every confidence above
the threshold. -/
theorem decodeRow_inv (t : ℚ) (frame : Frame) (acc acc' : Candidates) (row : List ℚ)
    (h : decodeRow t frame acc row = some acc')
    (hinv : acc.classIds.length = acc.confidences.length ∧
      acc.boxes.length = acc.confidences.length ∧ ∀ x ∈ acc.confidences, t < x) :
    acc'.classIds.length = acc'.confidences.length ∧
      acc'.boxes.length = acc'.confidences.length ∧ ∀ x ∈ acc'.confidences, t < x := by
  by_cases hlen : 5 < row.length
  · obtain ⟨cx, cy, w, hh, o, s, scores, rfl⟩ := row_split row hlen
    obtain ⟨m, k, hmm, -, -, -⟩ := minMaxLoc_spec (s :: scores) (by simp)
    rw [decodeRow_eq t frame _ cx cy w hh o _ m k hmm] at h
    by_cases hmt : m > t
    · rw [if_pos hmt] at h
      cases h
      obtain ⟨h1, h2, h3⟩ := hinv
      refine ⟨by simp [h1], by simp [h2], ?_⟩
      intro x hx
      rcases List.mem_append.mp hx with hx | hx
      · exact h3 x hx
      · rw [List.mem_singleton.mp hx]; exact hmt
    · rw [if_neg hmt] at h
      cases h
      exact hinv
  · exfalso
    unfold decodeRow colRange5 at h
    by_cases h5 : 5 ≤ row.length
    · have h5' : row.length = 5 := by omega
      have hd : row.drop 5 = [] := by
        apply List.eq_nil_of_length_eq_zero; simp [h5']
      simp [h5, hd, minMaxLoc] at h
    · simp [h5] at h

theorem foldlM_inv {α : Type} (P : Candidates → Prop) (f : Candidates → α → Option Candidates)
    (hf : ∀ a x a', f a x = some a' → P a → P a') (l : List α) :
    ∀ a a', l.foldlM f a = some a' → P a → P a' := by
  induction l with
  | nil => intro a a' h hp; cases h; exact hp
  | cons x l ih =>
    intro a a' h hp
    rw [List.foldlM_cons] at h
    cases hfx : f a x with
    | none => rw [hfx] at h; cases h
    | some b => rw [hfx] at h; exact ih b a' h (hf a x b hfx hp)

theorem decode_inv (t : ℚ) (frame : Frame) (outputs : List (List (List ℚ)))
    (c : Candidates) (h : decode t frame outputs = some c) :
    c.classIds.length = c.confidences.length ∧
      c.boxes.length = c.confidences.length ∧ ∀ x ∈ c.confidences, t < x := by
  refine foldlM_inv (fun c => c.classIds.length = c.confidences.length ∧
      c.boxes.length = c.confidences.length ∧ ∀ x ∈ c.confidences, t < x)
    _ ?_ outputs Candidates.empty c h ⟨rfl, rfl, by simp [Candidates.empty]⟩
  intro a output a' ha hp
  exact foldlM_inv _ _ (fun a x a' hx hpa => decodeRow_inv t frame a a' x hx hpa)
    output a a' ha hp

/-! ## The overlap measure and the greedy removal -/

theorem intersectionArea_comm (a b : Rect) : intersectionArea a b = intersectionArea b a := by
  unfold intersectionArea
  simp only [min_comm (a.x + a.width), max_comm a.x, min_comm (a.y + a.height), max_comm a.y]

theorem IoU_comm (a b : Rect) : IoU a b = IoU b a := by
  unfold IoU
  simp only [intersectionArea_comm a b, add_comm a.area]

theorem suppress_nil (n : ℚ) : suppress n [] = [] := by
  rw [suppress]

theorem suppress_cons (n : ℚ) (c : Scored) (rest : List Scored) :
    suppress n (c :: rest) =
      c :: suppress n (rest.filter fun r => !decide (IoU c.box r.box ≥ n)) := by
  rw [suppress]

theorem suppress_sublist_aux (n : ℚ) :
    ∀ (k : Nat) (l : List Scored), l.length ≤ k → (suppress n l).Sublist l := by
  intro k
  induction k with
  | zero =>
    intro l hl
    have : l = [] := List.eq_nil_of_length_eq_zero (Nat.le_zero.mp hl)
    subst this; rw [suppress_nil]
  | succ k ih =>
    intro l hl
    cases l with
    | nil => rw [suppress_nil]
    | cons c rest =>
      rw [suppress_cons]
      have hf : (rest.filter fun r => !decide (IoU c.box r.box ≥ n)).length ≤ k :=
        le_trans (List.length_filter_le _ _) (by simpa using hl)
      exact ((ih _ hf).trans (List.filter_sublist _)).cons₂ c

theorem suppress_sublist (n : ℚ) (l : List Scored) : (suppress n l).Sublist l :=
  suppress_sublist_aux n l.length l (le_refl _)

theorem suppress_pairwise_aux (n : ℚ) :
    ∀ (k : Nat) (l : List Scored), l.length ≤ k →
      (suppress n l).Pairwise fun a b => IoU a.box b.box < n := by
  intro k
  induction k with
  | zero =>
    intro l hl
    have : l = [] := List.eq_nil_of_length_eq_zero (Nat.le_zero.mp hl)
    subst this; rw [suppress_nil]; exact List.Pairwise.nil
  | succ k ih =>
    intro l hl
    cases l with
    | nil => rw [suppress_nil]; exact List.Pairwise.nil
    | cons c rest =>
      rw [suppress_cons]
      have hf : (rest.filter fun r => !decide (IoU c.box r.box ≥ n)).length ≤ k :=
        le_trans (List.length_filter_le _ _) (by simpa using hl)
      refine List.Pairwise.cons ?_ (ih _ hf)
      intro b hb
      have hb' := (suppress_sublist n _).subset hb
      have := (List.mem_filter.mp hb').2
      simpa using this

theorem suppress_pairwise (n : ℚ) (l : List Scored) :
    (suppress n l).Pairwise fun a b => IoU a.box b.box < n :=
  suppress_pairwise_aux n l.length l (le_refl _)

theorem suppress_eq_self (n : ℚ) (l : List Scored)
    (h : l.Pairwise fun a b => IoU a.box b.box < n) : suppress n l = l := by
  induction l with
  | nil => exact suppress_nil n
  | cons c rest ih =>
    rw [suppress_cons]
    obtain ⟨h1, h2⟩ := List.pairwise_cons.mp h
    have hf : (rest.filter fun r => !decide (IoU c.box r.box ≥ n)) = rest := by
      rw [List.filter_eq_self]
      intro b hb
      simpa using h1 b hb
    rw [hf, ih h2]

/-! ## Numbering of the candidates -/

theorem mem_entriesFrom (bs : List Rect) :
    ∀ (ss : List ℚ) (i : Nat) (e : Scored), e ∈ entriesFrom i bs ss →
      i ≤ e.idx ∧ bs[e.idx - i]? = some e.box ∧ ss[e.idx - i]? = some e.score := by
  induction bs with
  | nil => intro ss i e he; simp [entriesFrom] at he
  | cons b bs ih =>
    intro ss i e he
    cases ss with
    | nil => simp [entriesFrom] at he
    | cons s ss =>
      simp only [entriesFrom, List.mem_cons] at he
      rcases he with rfl | he
      · simp
      · obtain ⟨h1, h2, h3⟩ := ih ss (i + 1) e he
        have : e.idx - i = (e.idx - (i + 1)) + 1 := by omega
        refine ⟨by omega, ?_, ?_⟩
        · rw [this, List.getElem?_cons_succ]; exact h2
        · rw [this, List.getElem?_cons_succ]; exact h3

theorem entriesFrom_idx (bs : List Rect) :
    ∀ (ss : List ℚ) (i : Nat),
      (entriesFrom i bs ss).map Scored.idx = List.range' i (min bs.length ss.length) := by
  induction bs with
  | nil => intro ss i; simp [entriesFrom]
  | cons b bs ih =>
    intro ss i
    cases ss with
    | nil => simp [entriesFrom]
    | cons s ss =>
      simp only [entriesFrom, List.map_cons, List.length_cons, ih ss (i + 1)]
      rw [Nat.succ_min_succ, List.range'_succ]

theorem entriesFrom_map (l : List Scored) :
    ∀ i : Nat, (entriesFrom i (l.map Scored.box) (l.map Scored.score)).map
        (fun e => (e.score, e.box)) = l.map (fun e => (e.score, e.box)) := by
  induction l with
  | nil => intro i; simp [entriesFrom]
  | cons e l ih => intro i; simp [entriesFrom, ih (i + 1)]

/-! ## The kept candidates -/

theorem insertionSort_descending (l : List Scored) :
    (l.insertionSort fun a b => a.score ≥ b.score).Sorted fun a b => a.score ≥ b.score :=
  @List.sorted_insertionSort Scored (fun a b => a.score ≥ b.score) _
    ⟨fun a b => le_total b.score a.score⟩
    ⟨fun _ _ _ hab hbc => le_trans hbc hab⟩ l

theorem keptEntries_mem (bs : List Rect) (ss : List ℚ) (t n : ℚ) (e : Scored)
    (he : e ∈ keptEntries bs ss t n) :
    bs[e.idx]? = some e.box ∧ ss[e.idx]? = some e.score ∧ t < e.score := by
  unfold keptEntries at he
  have h1 := (suppress_sublist n _).subset he
  have h2 := (List.perm_insertionSort _ _).subset h1
  obtain ⟨h3, h4⟩ := List.mem_filter.mp h2
  obtain ⟨-, hb, hs⟩ := mem_entriesFrom bs ss 0 e h3
  exact ⟨by simpa using hb, by simpa using hs, by simpa using h4⟩

theorem keptEntries_nodup (bs : List Rect) (ss : List ℚ) (t n : ℚ) :
    ((keptEntries bs ss t n).map Scored.idx).Nodup := by
  have h0 : ((entriesFrom 0 bs ss).map Scored.idx).Nodup := by
    rw [entriesFrom_idx]; exact List.nodup_range' _ _
  have h1 : (((entriesFrom 0 bs ss).filter fun c => decide (c.score > t)).map
      Scored.idx).Nodup :=
    List.Nodup.sublist ((List.filter_sublist (entriesFrom 0 bs ss)).map Scored.idx) h0
  have h2 := (((List.perm_insertionSort (fun a b : Scored => a.score ≥ b.score)
    ((entriesFrom 0 bs ss).filter fun c => decide (c.score > t))).map Scored.idx).nodup_iff).mpr h1
  exact List.Nodup.sublist ((suppress_sublist n _).map Scored.idx) h2

theorem keptEntries_length (bs : List Rect) (ss : List ℚ) (t n : ℚ) :
    (keptEntries bs ss t n).length ≤ ss.length := by
  have h1 : (keptEntries bs ss t n).length ≤
      (((entriesFrom 0 bs ss).filter fun c => decide (c.score > t)).insertionSort
        fun a b => a.score ≥ b.score).length :=
    (suppress_sublist n _).length_le
  rw [List.length_insertionSort] at h1
  have h2 := List.length_filter_le (fun c : Scored => decide (c.score > t)) (entriesFrom 0 bs ss)
  have h3 : (entriesFrom 0 bs ss).length = min bs.length ss.length := by
    have := congrArg List.length (entriesFrom_idx bs ss 0)
    simpa using this
  have h4 : min bs.length ss.length ≤ ss.length := Nat.min_le_right _ _
  omega

theorem keptEntries_sorted (bs : List Rect) (ss : List ℚ) (t n : ℚ) :
    (keptEntries bs ss t n).Pairwise fun a b => a.score ≥ b.score :=
  List.Pairwise.sublist (suppress_sublist n _) (insertionSort_descending _)

theorem keptEntries_pairwise (bs : List Rect) (ss : List ℚ) (t n : ℚ) :
    (keptEntries bs ss t n).Pairwise fun a b => IoU a.box b.box < n :=
  suppress_pairwise n _

/-- A pool that is already admitted, sorted and free of overlaps is kept whole. -/
theorem keptEntries_fixed (l : List Scored) (t n : ℚ)
    (hadm : ∀ e ∈ l, t < e.score)
    (hsorted : l.Pairwise fun a b => a.score ≥ b.score)
    (hfree : l.Pairwise fun a b => IoU a.box b.box < n) :
    keptEntries (l.map Scored.box) (l.map Scored.score) t n
      = entriesFrom 0 (l.map Scored.box) (l.map Scored.score) := by
  have hmap := entriesFrom_map l 0
  set es := entriesFrom 0 (l.map Scored.box) (l.map Scored.score) with hes
  have hadm' : ∀ e ∈ es, t < e.score := by
    intro e he
    have : (e.score, e.box) ∈ es.map (fun e => (e.score, e.box)) :=
      List.mem_map_of_mem _ he
    rw [hmap] at this
    obtain ⟨e', he', heq⟩ := List.mem_map.mp this
    have h1 : e'.score = e.score := congrArg Prod.fst heq
    rw [← h1]; exact hadm e' he'
  have hsorted' : es.Pairwise fun a b => a.score ≥ b.score := by
    have : (es.map (fun e => (e.score, e.box))).Pairwise
        (fun x y : ℚ × Rect => x.1 ≥ y.1) := by
      rw [hmap, List.pairwise_map]; exact hsorted
    exact (List.pairwise_map (f := fun e : Scored => (e.score, e.box))
      (R := fun x y : ℚ × Rect => x.1 ≥ y.1)).mp this
  have hfree' : es.Pairwise fun a b => IoU a.box b.box < n := by
    have : (es.map (fun e => (e.score, e.box))).Pairwise
        (fun x y : ℚ × Rect => IoU x.2 y.2 < n) := by
      rw [hmap, List.pairwise_map]; exact hfree
    exact (List.pairwise_map (f := fun e : Scored => (e.score, e.box))
      (R := fun x y : ℚ × Rect => IoU x.2 y.2 < n)).mp this
  unfold keptEntries
  rw [← hes]
  have hf : (es.filter fun c => decide (c.score > t)) = es := by
    rw [List.filter_eq_self]
    intro e he; simpa using hadm' e he
  simp only [hf]
  rw [List.Sorted.insertionSort_eq hsorted', suppress_eq_self n es hfree']

theorem filterMap_eq_map {α β : Type} (f : α → Option β) (g : α → β) (l : List α)
    (h : ∀ a ∈ l, f a = some (g a)) : l.filterMap f = l.map g := by
  induction l with
  | nil => rfl
  | cons a l ih =>
    rw [List.filterMap_cons, h a (List.mem_cons_self _ _), List.map_cons,
      ih (fun b hb => h b (List.mem_cons_of_mem _ hb))]

/-! ## Assembly of the detections -/

theorem mapM_some {α β : Type} (f : α → Option β) (l : List α) :
    ∀ bs, l.mapM f = some bs → List.Forall₂ (fun a b => f a = some b) l bs := by
  induction l with
  | nil =>
    intro bs h
    rw [List.mapM_nil] at h
    cases h; exact List.Forall₂.nil
  | cons a l ih =>
    intro bs h
    rw [List.mapM_cons] at h
    cases hfa : f a with
    | none => rw [hfa] at h; cases h
    | some b =>
      rw [hfa] at h
      cases hl : l.mapM f with
      | none => rw [hl] at h; cases h
      | some bs' =>
        rw [hl] at h
        cases h
        exact List.Forall₂.cons hfa (ih bs' hl)

theorem forall₂_imp_mem {α β : Type} (R S : α → β → Prop) (l₁ : List α) (l₂ : List β)
    (h : List.Forall₂ R l₁ l₂) (hRS : ∀ a b, a ∈ l₁ → R a b → S a b) :
    List.Forall₂ S l₁ l₂ := by
  induction h with
  | nil => exact List.Forall₂.nil
  | cons hab _ ih =>
    exact List.Forall₂.cons (hRS _ _ (List.mem_cons_self _ _) hab)
      (ih (fun a b ha hr => hRS a b (List.mem_cons_of_mem _ ha) hr))

theorem mapM_total {α β : Type} (f : α → Option β) (l : List α)
    (h : ∀ a ∈ l, ∃ b, f a = some b) : ∃ bs, l.mapM f = some bs := by
  induction l with
  | nil => exact ⟨[], by rw [List.mapM_nil]; rfl⟩
  | cons a l ih =>
    obtain ⟨b, hb⟩ := h a (List.mem_cons_self _ _)
    obtain ⟨bs, hbs⟩ := ih (fun x hx => h x (List.mem_cons_of_mem _ hx))
    exact ⟨b :: bs, by rw [List.mapM_cons, hb, hbs]; rfl⟩

theorem mkDetection_some (c : Candidates) (idx : Nat) (d : List ℚ)
    (h : mkDetection c idx = some d) :
    ∃ classId confidence box, c.classIds[idx]? = some classId ∧
      c.confidences[idx]? = some confidence ∧ c.boxes[idx]? = some box ∧
      d = [toFloat (classId : ℚ), confidence, toFloat (box.x : ℚ), toFloat (box.y : ℚ),
           toFloat (box.width : ℚ), toFloat (box.height : ℚ)] := by
  unfold mkDetection at h
  cases h1 : c.classIds[idx]? with
  | none => simp [h1] at h
  | some classId =>
    cases h2 : c.confidences[idx]? with
    | none => simp [h1, h2] at h
    | some confidence =>
      cases h3 : c.boxes[idx]? with
      | none => simp [h1, h2, h3] at h
      | some box =>
        simp [h1, h2, h3] at h
        exact ⟨classId, confidence, box, rfl, rfl, rfl, h.symm⟩

/-- The four fields of a box are of magnitude at most `2 ^ 24`. -/
theorem detectionBox_mk (classId confidence : ℚ) (box : Rect)
    (hx : FitsFloat box.x) (hy : FitsFloat box.y)
    (hw : FitsFloat box.width) (hh : FitsFloat box.height) :
    detectionBox [classId, confidence, toFloat (box.x : ℚ), toFloat (box.y : ℚ),
      toFloat (box.width : ℚ), toFloat (box.height : ℚ)] = some box := by
  simp [detectionBox, toFloat_fits _ hx, toFloat_fits _ hy, toFloat_fits _ hw,
    toFloat_fits _ hh, toInt_fits _ hx, toInt_fits _ hy, toInt_fits _ hw, toInt_fits _ hh]

/-- What a successful call with a loaded network returns: the candidates of
the decode loop, and one detection per kept candidate, in order. -/
theorem detectObjects_kept (s : AIScanner) (frame : Frame)
    (outputs : List (List (List ℚ))) (dets : List (List ℚ))
    (hnet : s.net.empty = false) (h : detectObjects s frame outputs = some dets) :
    ∃ c, decode s.confidenceThreshold frame outputs = some c ∧
      List.Forall₂
        (fun e d => ∃ classId : Int, c.classIds[e.idx]? = some classId ∧
          c.confidences[e.idx]? = some e.score ∧ c.boxes[e.idx]? = some e.box ∧
          d = [toFloat (classId : ℚ), e.score, toFloat (e.box.x : ℚ), toFloat (e.box.y : ℚ),
               toFloat (e.box.width : ℚ), toFloat (e.box.height : ℚ)])
        (keptEntries c.boxes c.confidences s.confidenceThreshold s.nmsThreshold) dets := by
  unfold detectObjects at h
  rw [hnet] at h
  simp only [Bool.false_eq_true, if_false] at h
  cases hc : decode s.confidenceThreshold frame outputs with
  | none => rw [hc] at h; cases h
  | some c =>
    rw [hc] at h
    refine ⟨c, rfl, ?_⟩
    have hm := mapM_some (mkDetection c) _ dets h
    unfold NMSBoxes at hm
    rw [List.forall₂_map_left_iff] at hm
    refine forall₂_imp_mem _ _ _ _ hm ?_
    intro e d he hed
    obtain ⟨hb, hs, -⟩ := keptEntries_mem _ _ _ _ e he
    obtain ⟨classId, confidence, box, h1, h2, h3, h4⟩ := mkDetection_some c e.idx d hed
    rw [hs] at h2; rw [hb] at h3
    cases h2; cases h3
    exact ⟨classId, h1, hs, hb, h4⟩

/-! ## Properties of the returned detections -/

theorem box_first :
    decodeBox { cols := 100, rows := 100 } (1 / 2) (1 / 2) 1 1
      = { x := 0, y := 0, width := 100, height := 100 } :=
  decodeBox_small _ _ _ _ _ 50 50 100 100 (by decide) (by decide)
    (by norm_num) (by norm_num) (by norm_num) (by norm_num)
    (by decide) (by decide) (by decide) (by decide) (by decide) (by decide)

theorem box_second :
    decodeBox { cols := 100, rows := 100 } (11 / 20) (11 / 20) 1 1
      = { x := 5, y := 5, width := 100, height := 100 } :=
  decodeBox_small _ _ _ _ _ 55 55 100 100 (by decide) (by decide)
    (by norm_num) (by norm_num) (by norm_num) (by norm_num)
    (by decide) (by decide) (by decide) (by decide) (by decide) (by decide)

theorem box_third :
    decodeBox { cols := 100, rows := 100 } 2 2 1 1
      = { x := 150, y := 150, width := 100, height := 100 } :=
  decodeBox_small _ _ _ _ _ 200 200 100 100 (by decide) (by decide)
    (by norm_num) (by norm_num) (by norm_num) (by norm_num)
    (by decide) (by decide) (by decide) (by decide) (by decide) (by decide)

theorem loadedScanner_decode :
    decode (1 / 2) { cols := 100, rows := 100 }
      [[[1 / 2, 1 / 2, 1, 1, 0, 9 / 10], [11 / 20, 11 / 20, 1, 1, 0, 8 / 10]],
       [[2, 2, 1, 1, 0, 7 / 10]]]
      = some ⟨[0, 0, 0], [9 / 10, 8 / 10, 7 / 10],
          [⟨0, 0, 100, 100⟩, ⟨5, 5, 100, 100⟩, ⟨150, 150, 100, 100⟩]⟩ := by
  have r1 := fun acc => decodeRow_admit (1 / 2) { cols := 100, rows := 100 } acc
    (1 / 2) (1 / 2) 1 1 0 [9 / 10] (9 / 10) 0 _ rfl (by norm_num) box_first
  have r2 := fun acc => decodeRow_admit (1 / 2) { cols := 100, rows := 100 } acc
    (11 / 20) (11 / 20) 1 1 0 [8 / 10] (8 / 10) 0 _ rfl (by norm_num) box_second
  have r3 := fun acc => decodeRow_admit (1 / 2) { cols := 100, rows := 100 } acc
    2 2 1 1 0 [7 / 10] (7 / 10) 0 _ rfl (by norm_num) box_third
  simp only [decode, List.foldlM_cons, List.foldlM_nil, r1, r2, r3, Option.pure_def,
    Option.bind_eq_bind, Option.some_bind]
  rfl

theorem loadedScanner_detect :
    detectObjects loadedScanner { cols := 100, rows := 100 }
        [[[1 / 2, 1 / 2, 1, 1, 0, 9 / 10], [11 / 20, 11 / 20, 1, 1, 0, 8 / 10]],
         [[2, 2, 1, 1, 0, 7 / 10]]]
      = some [[0, 9 / 10, 0, 0, 100, 100], [0, 7 / 10, 150, 150, 100, 100]] := by
  have hk : NMSBoxes [⟨0, 0, 100, 100⟩, ⟨5, 5, 100, 100⟩, ⟨150, 150, 100, 100⟩]
      [9 / 10, 8 / 10, 7 / 10] (1 / 2) (2 / 5) = [0, 2] := by
    norm_num [NMSBoxes, keptEntries, entriesFrom, List.insertionSort, List.orderedInsert,
      suppress_cons, suppress_nil, IoU, intersectionArea, Rect.area]
  have e1 : loadedScanner.confidenceThreshold = 1 / 2 := rfl
  have e2 : loadedScanner.nmsThreshold = 2 / 5 := rfl
  have e3 : loadedScanner.net.empty = false := rfl
  have f0 : toFloat (0 : ℚ) = 0 := by simpa using toFloat_fits 0 (by decide)
  have f100 : toFloat (100 : ℚ) = 100 := by simpa using toFloat_fits 100 (by decide)
  have f150 : toFloat (150 : ℚ) = 150 := by simpa using toFloat_fits 150 (by decide)
  unfold detectObjects
  rw [e1, e2, e3, loadedScanner_decode]
  simp only [Bool.false_eq_true, if_false, Option.bind_eq_bind, Option.some_bind, hk,
    List.mapM_cons, List.mapM_nil]
  norm_num [mkDetection, f0, f100, f150]

theorem detectObjects_empty_net (s : AIScanner) (frame : Frame)
    (outputs : List (List (List ℚ))) (hnet : s.net.empty = true) :
    detectObjects s frame outputs = some [] := by
  unfold detectObjects
  rw [hnet]; rfl

/-! ### Coordinates beyond `2 ^ 24` -/

theorem toFloat_33554429 : toFloat (33554429 : ℚ) = 33554428 := by
  rw [toFloat_eq 33554429 24 (by norm_num) (by norm_num [abs_of_pos])
      (by norm_num [abs_of_pos]),
    roundHalfEven_tie _ 16777214 (by norm_num)]
  norm_num

theorem toFloat_33554427 : toFloat (33554427 : ℚ) = 33554428 := by
  rw [toFloat_eq 33554427 24 (by norm_num) (by norm_num [abs_of_pos])
      (by norm_num [abs_of_pos]),
    roundHalfEven_tie _ 16777213 (by norm_num)]
  norm_num

theorem bigBox_first :
    decodeBox { cols := 2, rows := 2 } 16777215 (1 / 2) (3 / 2) 1
      = { x := 33554429, y := 0, width := 3, height := 2 } :=
  decodeBox_of_int _ _ _ _ _ 33554430 1 3 2
    (toFloat_fits 2 (by decide)) (toFloat_fits 2 (by decide))
    (by norm_num) (by norm_num) (by norm_num) (by norm_num)
    (by have h := toFloat_dyadic 16777215 1 (by norm_num) (by norm_num)
        norm_num at h ⊢
        exact h)
    (toFloat_fits 1 (by decide)) (toFloat_fits 3 (by decide)) (toFloat_fits 2 (by decide))
    (by decide) (by decide) (by decide) (by decide) (by decide) (by decide)

theorem bigBox_second :
    decodeBox { cols := 2, rows := 2 } 16777214 (1 / 2) (3 / 2) 1
      = { x := 33554427, y := 0, width := 3, height := 2 } :=
  decodeBox_of_int _ _ _ _ _ 33554428 1 3 2
    (toFloat_fits 2 (by decide)) (toFloat_fits 2 (by decide))
    (by norm_num) (by norm_num) (by norm_num) (by norm_num)
    (by have h := toFloat_dyadic 16777214 1 (by norm_num) (by norm_num)
        norm_num at h ⊢
        exact h)
    (toFloat_fits 1 (by decide)) (toFloat_fits 3 (by decide)) (toFloat_fits 2 (by decide))
    (by decide) (by decide) (by decide) (by decide) (by decide) (by decide)

theorem bigRows_decode :
    decode (1 / 2) { cols := 2, rows := 2 }
      [[[16777215, 1 / 2, 3 / 2, 1, 0, 3 / 4], [16777214, 1 / 2, 3 / 2, 1, 0, 5 / 8]]]
      = some ⟨[0, 0], [3 / 4, 5 / 8], [⟨33554429, 0, 3, 2⟩, ⟨33554427, 0, 3, 2⟩]⟩ := by
  have r1 := fun acc => decodeRow_admit (1 / 2) { cols := 2, rows := 2 } acc
    16777215 (1 / 2) (3 / 2) 1 0 [3 / 4] (3 / 4) 0 _ rfl (by norm_num) bigBox_first
  have r2 := fun acc => decodeRow_admit (1 / 2) { cols := 2, rows := 2 } acc
    16777214 (1 / 2) (3 / 2) 1 0 [5 / 8] (5 / 8) 0 _ rfl (by norm_num) bigBox_second
  simp only [decode, List.foldlM_cons, List.foldlM_nil, r1, r2, Option.pure_def,
    Option.bind_eq_bind, Option.some_bind]
  rfl

theorem bigRows_detect :
    detectObjects loadedScanner { cols := 2, rows := 2 }
        [[[16777215, 1 / 2, 3 / 2, 1, 0, 3 / 4], [16777214, 1 / 2, 3 / 2, 1, 0, 5 / 8]]]
      = some [[0, 3 / 4, 33554428, 0, 3, 2], [0, 5 / 8, 33554428, 0, 3, 2]] := by
  have hk : NMSBoxes [⟨33554429, 0, 3, 2⟩, ⟨33554427, 0, 3, 2⟩]
      [3 / 4, 5 / 8] (1 / 2) (2 / 5) = [0, 1] := by
    norm_num [NMSBoxes, keptEntries, entriesFrom, List.insertionSort, List.orderedInsert,
      suppress_cons, suppress_nil, IoU, intersectionArea, Rect.area]
  have e1 : loadedScanner.confidenceThreshold = 1 / 2 := rfl
  have e2 : loadedScanner.nmsThreshold = 2 / 5 := rfl
  have e3 : loadedScanner.net.empty = false := rfl
  have f0 : toFloat (0 : ℚ) = 0 := by simpa using toFloat_fits 0 (by decide)
  have f2 : toFloat (2 : ℚ) = 2 := by simpa using toFloat_fits 2 (by decide)
  have f3 : toFloat (3 : ℚ) = 3 := by simpa using toFloat_fits 3 (by decide)
  unfold detectObjects
  rw [e1, e2, e3, bigRows_decode]
  simp only [Bool.false_eq_true, if_false, Option.bind_eq_bind, Option.some_bind, hk,
    List.mapM_cons, List.mapM_nil]
  norm_num [mkDetection, f0, f2, f3, toFloat_33554429, toFloat_33554427]

theorem bigRow_detect :
    detectObjects loadedScanner { cols := 2, rows := 2 }
        [[[16777215, 1 / 2, 3 / 2, 1, 0, 3 / 4]]]
      = some [[0, 3 / 4, 33554428, 0, 3, 2]] := by
  have hd : decode (1 / 2) { cols := 2, rows := 2 }
      [[[16777215, 1 / 2, 3 / 2, 1, 0, 3 / 4]]]
      = some ⟨[0], [3 / 4], [⟨33554429, 0, 3, 2⟩]⟩ := by
    have r1 := fun acc => decodeRow_admit (1 / 2) { cols := 2, rows := 2 } acc
      16777215 (1 / 2) (3 / 2) 1 0 [3 / 4] (3 / 4) 0 _ rfl (by norm_num) bigBox_first
    simp only [decode, List.foldlM_cons, List.foldlM_nil, r1, Option.pure_def,
      Option.bind_eq_bind, Option.some_bind]
    rfl
  have hk : NMSBoxes [⟨33554429, 0, 3, 2⟩] [3 / 4] (1 / 2) (2 / 5) = [0] := by
    norm_num [NMSBoxes, keptEntries, entriesFrom, List.insertionSort, List.orderedInsert,
      suppress_cons, suppress_nil]
  have e1 : loadedScanner.confidenceThreshold = 1 / 2 := rfl
  have e2 : loadedScanner.nmsThreshold = 2 / 5 := rfl
  have e3 : loadedScanner.net.empty = false := rfl
  have f0 : toFloat (0 : ℚ) = 0 := by simpa using toFloat_fits 0 (by decide)
  have f2 : toFloat (2 : ℚ) = 2 := by simpa using toFloat_fits 2 (by decide)
  have f3 : toFloat (3 : ℚ) = 3 := by simpa using toFloat_fits 3 (by decide)
  unfold detectObjects
  rw [e1, e2, e3, hd]
  simp only [Bool.false_eq_true, if_false, Option.bind_eq_bind, Option.some_bind, hk,
    List.mapM_cons, List.mapM_nil]
  norm_num [mkDetection, f0, f2, f3, toFloat_33554429]

theorem detectionBox_big (confidence : ℚ) :
    detectionBox [0, confidence, 33554428, 0, 3, 2]
      = some { x := 33554428, y := 0, width := 3, height := 2 } := by
  have t1 : toInt (33554428 : ℚ) = 33554428 := by
    simpa using toInt_intCast 33554428 (by decide)
  have t0 : toInt (0 : ℚ) = 0 := by simpa using toInt_intCast 0 (by decide)
  have t3 : toInt (3 : ℚ) = 3 := by simpa using toInt_intCast 3 (by decide)
  have t2 : toInt (2 : ℚ) = 2 := by simpa using toInt_intCast 2 (by decide)
  simp [detectionBox, t0, t1, t2, t3]

/-! ### Claims on the returned detections -/

/-- Claim C1 (as amended). Whatever the output rows, the frame and the two
thresholds, the boxes of the candidates kept by the suppression, of which the
returned detections hold the conversions to `float` in the same order, have
pairwise an Intersection-over-Union strictly below `nmsThreshold`, the class
ids playing no part; and when every kept box has coordinates and sizes of
magnitude at most `2 ^ 24`, any two detections at distinct positions of the
returned list have boxes whose Intersection-over-Union is strictly below
`nmsThreshold`. -/
theorem detectObjects_iou_bound (s : AIScanner) (frame : Frame)
    (outputs : List (List (List ℚ))) (dets : List (List ℚ))
    (h : detectObjects s frame outputs = some dets) :
    ∃ (c : Candidates) (kept : List Rect),
      (s.net.empty = false → decode s.confidenceThreshold frame outputs = some c) ∧
      (s.net.empty = true → c = Candidates.empty) ∧
      (∀ b ∈ kept, b ∈ c.boxes) ∧
      List.Forall₂
        (fun b d => d[2]? = some (toFloat (b.x : ℚ)) ∧ d[3]? = some (toFloat (b.y : ℚ)) ∧
          d[4]? = some (toFloat (b.width : ℚ)) ∧ d[5]? = some (toFloat (b.height : ℚ)))
        kept dets ∧
      kept.Pairwise (fun a b => IoU a b < s.nmsThreshold ∧ IoU b a < s.nmsThreshold) ∧
      ((∀ b ∈ kept, FitsFloat b.x ∧ FitsFloat b.y ∧ FitsFloat b.width ∧
          FitsFloat b.height) →
        ∀ (i j : Nat) (hi : i < dets.length) (hj : j < dets.length), i ≠ j →
          ∃ a b, detectionBox (dets.get ⟨i, hi⟩) = some a ∧
            detectionBox (dets.get ⟨j, hj⟩) = some b ∧ IoU a b < s.nmsThreshold) := by
  cases hnet : s.net.empty with
  | true =>
    rw [detectObjects_empty_net s frame outputs hnet] at h
    cases h
    refine ⟨Candidates.empty, [], by simp, by simp, by simp, List.Forall₂.nil,
      List.Pairwise.nil, ?_⟩
    intro _ i j hi; simp at hi
  | false =>
    obtain ⟨c, hc, hf⟩ := detectObjects_kept s frame outputs dets hnet h
    have hpwK := keptEntries_pairwise c.boxes c.confidences s.confidenceThreshold
      s.nmsThreshold
    refine ⟨c, (keptEntries c.boxes c.confidences s.confidenceThreshold
      s.nmsThreshold).map Scored.box, fun _ => hc, by simp, ?_, ?_, ?_, ?_⟩
    · intro b hb
      obtain ⟨e, he, rfl⟩ := List.mem_map.mp hb
      exact List.getElem?_mem (keptEntries_mem _ _ _ _ e he).1
    · rw [List.forall₂_map_left_iff]
      refine forall₂_imp_mem _ _ _ _ hf ?_
      rintro e d - ⟨classId, -, -, -, rfl⟩
      exact ⟨rfl, rfl, rfl, rfl⟩
    · rw [List.pairwise_map]
      exact hpwK.imp (fun {a b} hab => ⟨hab, by rw [IoU_comm]; exact hab⟩)
    · intro hfits i j hi hj hij
      obtain ⟨hlen, hget⟩ := List.forall₂_iff_get.mp hf
      have hpw := List.pairwise_iff_getElem.mp hpwK
      have hi' : i < (keptEntries c.boxes c.confidences s.confidenceThreshold
          s.nmsThreshold).length := by rw [hlen]; exact hi
      have hj' : j < (keptEntries c.boxes c.confidences s.confidenceThreshold
          s.nmsThreshold).length := by rw [hlen]; exact hj
      obtain ⟨ci, -, -, -, hdi⟩ := hget i hi' hi
      obtain ⟨cj, -, -, -, hdj⟩ := hget j hj' hj
      obtain ⟨fi1, fi2, fi3, fi4⟩ := hfits _
        (List.mem_map_of_mem Scored.box (List.get_mem _ i hi'))
      obtain ⟨fj1, fj2, fj3, fj4⟩ := hfits _
        (List.mem_map_of_mem Scored.box (List.get_mem _ j hj'))
      refine ⟨_, _, by rw [hdi]; exact detectionBox_mk _ _ _ fi1 fi2 fi3 fi4,
        by rw [hdj]; exact detectionBox_mk _ _ _ fj1 fj2 fj3 fj4, ?_⟩
      simp only [List.get_eq_getElem]
      rcases Nat.lt_or_gt_of_ne hij with hlt | hgt
      · exact hpw i j hi' hj' hlt
      · rw [IoU_comm]; exact hpw j i hj' hi' hgt

/-- Witness of C1: three admitted rows on a 100x100 frame give the boxes
(0,0,100,100), (5,5,100,100) and (150,150,100,100) with confidences 0.9, 0.8
and 0.7; at `nmsThreshold` 0.4 the second is suppressed by the first, and the
two detections returned obey the bound. The candidates (0,0,100,100) at 0.9
and (5,5,100,100) at 0.8 alone yield only the first. -/
theorem detectObjects_iou_bound_witness :
    detectObjects loadedScanner { cols := 100, rows := 100 }
        [[[1 / 2, 1 / 2, 1, 1, 0, 9 / 10], [11 / 20, 11 / 20, 1, 1, 0, 8 / 10]],
         [[2, 2, 1, 1, 0, 7 / 10]]]
      = some [[0, 9 / 10, 0, 0, 100, 100], [0, 7 / 10, 150, 150, 100, 100]] ∧
    NMSBoxes [⟨0, 0, 100, 100⟩, ⟨5, 5, 100, 100⟩] [9 / 10, 8 / 10] (1 / 2) (2 / 5) = [0] ∧
    (∃ a b, detectionBox [0, 9 / 10, 0, 0, 100, 100] = some a ∧
        detectionBox [0, 7 / 10, 150, 150, 100, 100] = some b ∧ IoU a b < 2 / 5) := by
  refine ⟨loadedScanner_detect, ?_, ?_⟩
  · norm_num [NMSBoxes, keptEntries, entriesFrom, List.insertionSort, List.orderedInsert,
      suppress_cons, suppress_nil, IoU, intersectionArea, Rect.area]
  · obtain ⟨c, kept, hc, -, hmem, -, -, hbound⟩ :=
      detectObjects_iou_bound loadedScanner _ _ _ loadedScanner_detect
    have hc' := hc rfl
    have e1 : loadedScanner.confidenceThreshold = 1 / 2 := rfl
    rw [e1, loadedScanner_decode] at hc'
    cases hc'
    refine hbound ?_ 0 1 (by decide) (by decide) (by decide)
    intro b hb
    have hb' := hmem b hb
    simp only [List.mem_cons, List.mem_singleton, List.not_mem_nil, or_false] at hb'
    rcases hb' with rfl | rfl | rfl <;> decide

/-- Claim C1 (counterexample). On a 2x2 frame the rows with cx 16777215 and
16777214 (w 1.5, confidences 0.75 and 0.625) give the candidate boxes
(33554429, 0, 3, 2) and (33554427, 0, 3, 2), of Intersection-over-Union 1/5,
so at `nmsThreshold` 0.4 both are kept; the cast to `float` rounds both x to
33554428 and the two detections returned hold the same box, of
Intersection-over-Union 1 with itself. -/
theorem detectObjects_iou_rounded :
    decode (1 / 2) { cols := 2, rows := 2 }
        [[[16777215, 1 / 2, 3 / 2, 1, 0, 3 / 4], [16777214, 1 / 2, 3 / 2, 1, 0, 5 / 8]]]
      = some ⟨[0, 0], [3 / 4, 5 / 8], [⟨33554429, 0, 3, 2⟩, ⟨33554427, 0, 3, 2⟩]⟩ ∧
    IoU ⟨33554429, 0, 3, 2⟩ ⟨33554427, 0, 3, 2⟩ = 1 / 5 ∧
    detectObjects loadedScanner { cols := 2, rows := 2 }
        [[[16777215, 1 / 2, 3 / 2, 1, 0, 3 / 4], [16777214, 1 / 2, 3 / 2, 1, 0, 5 / 8]]]
      = some [[0, 3 / 4, 33554428, 0, 3, 2], [0, 5 / 8, 33554428, 0, 3, 2]] ∧
    detectionBox [0, 3 / 4, 33554428, 0, 3, 2] = some ⟨33554428, 0, 3, 2⟩ ∧
    detectionBox [0, 5 / 8, 33554428, 0, 3, 2] = some ⟨33554428, 0, 3, 2⟩ ∧
    IoU ⟨33554428, 0, 3, 2⟩ ⟨33554428, 0, 3, 2⟩ = 1 ∧
    ¬ (IoU ⟨33554428, 0, 3, 2⟩ ⟨33554428, 0, 3, 2⟩ < loadedScanner.nmsThreshold) := by
  have hiou : IoU ⟨33554428, 0, 3, 2⟩ ⟨33554428, 0, 3, 2⟩ = 1 := by
    norm_num [IoU, intersectionArea, Rect.area]
  have e2 : loadedScanner.nmsThreshold = 2 / 5 := rfl
  refine ⟨bigRows_decode, ?_, bigRows_detect, detectionBox_big _, detectionBox_big _,
    hiou, ?_⟩
  · norm_num [IoU, intersectionArea, Rect.area]
  · rw [hiou, e2]; norm_num


theorem decode_total (t : ℚ) (frame : Frame) (outputs : List (List (List ℚ)))
    (hrows : ∀ output ∈ outputs, ∀ row ∈ output, 5 < row.length) :
    ∃ c cs, decode t frame outputs = some c ∧
      c = cs.foldl Candidates.append Candidates.empty ∧
      List.Forall₂ (fun row r => decodeRow t frame Candidates.empty row = some r ∧
        r.confidences.length = (if ∃ v ∈ row.drop 5, t < v then 1 else 0))
        outputs.flatten cs ∧
      c.confidences.length =
        (outputs.flatten.filter fun row => (row.drop 5).any fun v => decide (t < v)).length := by
  obtain ⟨cs, h1, h2⟩ := foldlM_outputs t frame outputs hrows
  refine ⟨_, cs, h2 Candidates.empty, rfl, h1, ?_⟩
  rw [length_foldl_append, sum_forall₂_filter t _ cs _ (fun _ _ h => h.2) h1]
  simp [Candidates.empty]

theorem detectObjects_total (s : AIScanner) (frame : Frame)
    (outputs : List (List (List ℚ)))
    (hrows : ∀ output ∈ outputs, ∀ row ∈ output, 5 < row.length) :
    ∃ dets, detectObjects s frame outputs = some dets := by
  cases hnet : s.net.empty with
  | true => exact ⟨[], detectObjects_empty_net s frame outputs hnet⟩
  | false =>
    obtain ⟨c, -, hc, -, -, -⟩ := decode_total s.confidenceThreshold frame outputs hrows
    obtain ⟨hl1, -, -⟩ := decode_inv _ _ _ c hc
    have hall : ∀ idx ∈ NMSBoxes c.boxes c.confidences s.confidenceThreshold s.nmsThreshold,
        ∃ d, mkDetection c idx = some d := by
      intro idx hidx
      unfold NMSBoxes at hidx
      obtain ⟨e, he, rfl⟩ := List.mem_map.mp hidx
      obtain ⟨hb, hs, -⟩ := keptEntries_mem _ _ _ _ e he
      have hlt : e.idx < c.confidences.length := by
        by_contra hge
        rw [List.getElem?_eq_none (not_lt.mp hge)] at hs
        cases hs
      cases hcl : c.classIds[e.idx]? with
      | none =>
        have := List.getElem?_eq_none_iff.mp hcl
        omega
      | some classId =>
        exact ⟨[toFloat (classId : ℚ), e.score, toFloat (e.box.x : ℚ),
          toFloat (e.box.y : ℚ), toFloat (e.box.width : ℚ), toFloat (e.box.height : ℚ)],
          by simp [mkDetection, hcl, hs, hb]⟩
    obtain ⟨dets, hdets⟩ := mapM_total _ _ hall
    refine ⟨dets, ?_⟩
    unfold detectObjects
    rw [hnet, hc]
    simpa using hdets

/-- Claim C2 (as amended). The detections returned by `detectObjects` are taken
from the candidates that passed the confidence filter: there is a list of
pairwise distinct indices, one per detection and in the same order, such that
each detection is built from that one index of the parallel vectors
`classIds`, `confidences`, `boxes`: its confidence is the candidate's, and its
class id, x, y, width and height are the candidate's integers cast to `float`,
equal to them when their magnitude is at most `2 ^ 24`; hence there are at most
as many detections as candidates. The call returns whenever every row has a
class-score column. -/
theorem detectObjects_subset (s : AIScanner) (frame : Frame)
    (outputs : List (List (List ℚ))) :
    (∀ dets, detectObjects s frame outputs = some dets →
      ∃ (c : Candidates) (indices : List Nat),
        (s.net.empty = false → decode s.confidenceThreshold frame outputs = some c) ∧
        (s.net.empty = true → c = Candidates.empty) ∧
        c.classIds.length = c.confidences.length ∧
        c.boxes.length = c.confidences.length ∧
        (∀ x ∈ c.confidences, s.confidenceThreshold < x) ∧
        indices.Nodup ∧
        List.Forall₂
          (fun idx d => ∃ (classId : Int) (confidence : ℚ) (box : Rect),
            c.classIds[idx]? = some classId ∧ c.confidences[idx]? = some confidence ∧
            c.boxes[idx]? = some box ∧
            d = [toFloat (classId : ℚ), confidence, toFloat (box.x : ℚ),
                 toFloat (box.y : ℚ), toFloat (box.width : ℚ), toFloat (box.height : ℚ)] ∧
            (FitsFloat classId → FitsFloat box.x → FitsFloat box.y →
              FitsFloat box.width → FitsFloat box.height →
              d = [(classId : ℚ), confidence, (box.x : ℚ), (box.y : ℚ),
                   (box.width : ℚ), (box.height : ℚ)]))
          indices dets ∧
        dets.length ≤ c.confidences.length) ∧
    ((∀ output ∈ outputs, ∀ row ∈ output, 5 < row.length) →
      ∃ dets, detectObjects s frame outputs = some dets) := by
  refine ⟨?_, detectObjects_total s frame outputs⟩
  intro dets h
  cases hnet : s.net.empty with
  | true =>
    rw [detectObjects_empty_net s frame outputs hnet] at h
    cases h
    exact ⟨Candidates.empty, [], by simp, by simp, rfl, rfl,
      by simp [Candidates.empty], List.nodup_nil, List.Forall₂.nil, by simp⟩
  | false =>
    obtain ⟨c, hc, hf⟩ := detectObjects_kept s frame outputs dets hnet h
    obtain ⟨hl1, hl2, hl3⟩ := decode_inv _ _ _ c hc
    refine ⟨c, NMSBoxes c.boxes c.confidences s.confidenceThreshold s.nmsThreshold,
      fun _ => hc, by simp, hl1, hl2, hl3, keptEntries_nodup _ _ _ _, ?_, ?_⟩
    · unfold NMSBoxes
      rw [List.forall₂_map_left_iff]
      refine forall₂_imp_mem _ _ _ _ hf ?_
      rintro e d - ⟨classId, h1, h2, h3, h4⟩
      refine ⟨classId, e.score, e.box, h1, h2, h3, h4, ?_⟩
      intro f0 f1 f2 f3 f4
      rw [h4, toFloat_fits _ f0, toFloat_fits _ f1, toFloat_fits _ f2, toFloat_fits _ f3,
        toFloat_fits _ f4]
    · rw [← hf.length_eq]
      exact keptEntries_length _ _ _ _

/-- Witness of C2 on the three-row frame: the call returns, and the two
detections are the candidates at two distinct indices. -/
theorem detectObjects_subset_witness :
    (∃ (c : Candidates) (indices : List Nat),
        (loadedScanner.net.empty = false →
          decode loadedScanner.confidenceThreshold { cols := 100, rows := 100 }
            [[[1 / 2, 1 / 2, 1, 1, 0, 9 / 10], [11 / 20, 11 / 20, 1, 1, 0, 8 / 10]],
             [[2, 2, 1, 1, 0, 7 / 10]]] = some c) ∧
        (loadedScanner.net.empty = true → c = Candidates.empty) ∧
        c.classIds.length = c.confidences.length ∧
        c.boxes.length = c.confidences.length ∧
        (∀ x ∈ c.confidences, loadedScanner.confidenceThreshold < x) ∧
        indices.Nodup ∧
        List.Forall₂
          (fun idx d => ∃ (classId : Int) (confidence : ℚ) (box : Rect),
            c.classIds[idx]? = some classId ∧ c.confidences[idx]? = some confidence ∧
            c.boxes[idx]? = some box ∧
            d = [toFloat (classId : ℚ), confidence, toFloat (box.x : ℚ),
                 toFloat (box.y : ℚ), toFloat (box.width : ℚ), toFloat (box.height : ℚ)] ∧
            (FitsFloat classId → FitsFloat box.x → FitsFloat box.y →
              FitsFloat box.width → FitsFloat box.height →
              d = [(classId : ℚ), confidence, (box.x : ℚ), (box.y : ℚ),
                   (box.width : ℚ), (box.height : ℚ)]))
          indices [[0, 9 / 10, 0, 0, 100, 100], [0, 7 / 10, 150, 150, 100, 100]] ∧
        [[0, 9 / 10, 0, 0, 100, 100], [0, 7 / 10, 150, 150, 100, 100]].length
          ≤ c.confidences.length) ∧
    (∃ dets, detectObjects loadedScanner { cols := 100, rows := 100 }
        [[[1 / 2, 1 / 2, 1, 1, 0, 9 / 10], [11 / 20, 11 / 20, 1, 1, 0, 8 / 10]],
         [[2, 2, 1, 1, 0, 7 / 10]]] = some dets) :=
  ⟨(detectObjects_subset loadedScanner _ _).1 _ loadedScanner_detect,
   (detectObjects_subset loadedScanner { cols := 100, rows := 100 }
      [[[1 / 2, 1 / 2, 1, 1, 0, 9 / 10], [11 / 20, 11 / 20, 1, 1, 0, 8 / 10]],
       [[2, 2, 1, 1, 0, 7 / 10]]]).2 (by simp)⟩

/-- Claim C2 (counterexample). On a 2x2 frame the row with cx 16777215, w 1.5
and confidence 0.75 gives the single candidate (class 0, 0.75, box
(33554429, 0, 3, 2)); the detection returned for it has x 33554428, the
`float` nearest to 33554429, not the candidate's x. -/
theorem detectObjects_field_rounded :
    decode (1 / 2) { cols := 2, rows := 2 } [[[16777215, 1 / 2, 3 / 2, 1, 0, 3 / 4]]]
      = some ⟨[0], [3 / 4], [⟨33554429, 0, 3, 2⟩]⟩ ∧
    detectObjects loadedScanner { cols := 2, rows := 2 }
        [[[16777215, 1 / 2, 3 / 2, 1, 0, 3 / 4]]]
      = some [[0, 3 / 4, 33554428, 0, 3, 2]] ∧
    (33554428 : ℚ) ≠ ((33554429 : Int) : ℚ) := by
  refine ⟨?_, bigRow_detect, by norm_num⟩
  have r1 := fun acc => decodeRow_admit (1 / 2) { cols := 2, rows := 2 } acc
    16777215 (1 / 2) (3 / 2) 1 0 [3 / 4] (3 / 4) 0 _ rfl (by norm_num) bigBox_first
  simp only [decode, List.foldlM_cons, List.foldlM_nil, r1, Option.pure_def,
    Option.bind_eq_bind, Option.some_bind]
  rfl

/-! ## Claims on the decode loop -/

theorem decodeRow_strict (t : ℚ) (frame : Frame) (acc : Candidates) (row : List ℚ)
    (m : ℚ) (hm : m ∈ row.drop 5) (hmax : ∀ v ∈ row.drop 5, v ≤ m) :
    (t < m → ∃ (classId : Int) (box : Rect), decodeRow t frame acc row =
      some { classIds := acc.classIds ++ [classId],
             confidences := acc.confidences ++ [m],
             boxes := acc.boxes ++ [box] }) ∧
    (m ≤ t → decodeRow t frame acc row = some acc) := by
  have hlen : 5 < row.length := by
    by_contra hle
    rw [List.drop_eq_nil_of_le (not_lt.mp hle)] at hm
    cases hm
  obtain ⟨cx, cy, w, h, o, s, scores, rfl⟩ := row_split row hlen
  obtain ⟨m', k, hmm, hk, hmax', -⟩ := minMaxLoc_spec (s :: scores) (by simp)
  have hm'mem : m' ∈ s :: scores := List.getElem?_mem hk
  have heq : m' = m := max_unique _ m' m hm'mem hmax' (by simpa using hm)
    (by simpa using hmax)
  subst heq
  rw [decodeRow_eq t frame _ cx cy w h o _ m' k hmm]
  constructor
  · intro htm
    exact ⟨(k : Int), decodeBox frame cx cy w h, by rw [if_pos htm]⟩
  · intro hmt
    rw [if_neg (not_lt.mpr hmt)]

theorem detectObjects_confidence (s : AIScanner) (frame : Frame)
    (outputs : List (List (List ℚ))) (dets : List (List ℚ))
    (h : detectObjects s frame outputs = some dets) :
    ∀ d ∈ dets, ∃ confidence, d[1]? = some confidence ∧
      s.confidenceThreshold < confidence := by
  cases hnet : s.net.empty with
  | true =>
    rw [detectObjects_empty_net s frame outputs hnet] at h
    cases h
    intro d hd; cases hd
  | false =>
    obtain ⟨c, hc, hf⟩ := detectObjects_kept s frame outputs dets hnet h
    intro d hd
    obtain ⟨i, hi, rfl⟩ := List.getElem_of_mem hd
    obtain ⟨hlen, hget⟩ := List.forall₂_iff_get.mp hf
    obtain ⟨classId, -, -, -, hdi⟩ := hget i (by rw [hlen]; exact hi) hi
    simp only [List.get_eq_getElem] at hdi
    rw [hdi]
    refine ⟨_, rfl, ?_⟩
    exact (keptEntries_mem _ _ _ _ _ (List.getElem_mem _)).2.2

/-- Claim C3. For every row with at least one class score, of maximum `m`, and
every threshold `t`, the loop body appends a candidate (of confidence `m`) when
`t < m` and leaves the three vectors as they are when `m ≤ t`, so a row whose
maximum equals `t` gives no candidate; and every detection returned by
`detectObjects` has a confidence strictly above `confidenceThreshold`. -/
theorem decode_threshold_strict :
    (∀ (t : ℚ) (frame : Frame) (acc : Candidates) (row : List ℚ) (m : ℚ),
      m ∈ row.drop 5 → (∀ v ∈ row.drop 5, v ≤ m) →
        (t < m → ∃ (classId : Int) (box : Rect), decodeRow t frame acc row =
          some { classIds := acc.classIds ++ [classId],
                 confidences := acc.confidences ++ [m],
                 boxes := acc.boxes ++ [box] }) ∧
        (m ≤ t → decodeRow t frame acc row = some acc)) ∧
    (∀ (s : AIScanner) (frame : Frame) (outputs : List (List (List ℚ)))
        (dets : List (List ℚ)),
      detectObjects s frame outputs = some dets →
        ∀ d ∈ dets, ∃ confidence, d[1]? = some confidence ∧
          s.confidenceThreshold < confidence) :=
  ⟨decodeRow_strict, detectObjects_confidence⟩

/-- Witness of C3 at threshold 0.5: a row whose maximum score is exactly 0.5
adds nothing, a row whose maximum is 0.51 adds a candidate, and the detections
of the three-row frame have confidences 0.9 and 0.7. -/
theorem decode_threshold_strict_witness :
    decodeRow (1 / 2) { cols := 20, rows := 20 } Candidates.empty
        [1 / 2, 1 / 2, 1 / 4, 1 / 4, 0, 1 / 2, 3 / 10] = some Candidates.empty ∧
    (∃ (classId : Int) (box : Rect),
      decodeRow (1 / 2) { cols := 20, rows := 20 } Candidates.empty
        [1 / 2, 1 / 2, 1 / 4, 1 / 4, 0, 3 / 10, 51 / 100] =
        some { classIds := Candidates.empty.classIds ++ [classId],
               confidences := Candidates.empty.confidences ++ [51 / 100],
               boxes := Candidates.empty.boxes ++ [box] }) ∧
    (∀ d ∈ [[(0 : ℚ), 9 / 10, 0, 0, 100, 100], [0, 7 / 10, 150, 150, 100, 100]],
      ∃ confidence, d[1]? = some confidence ∧
        loadedScanner.confidenceThreshold < confidence) :=
  ⟨(decode_threshold_strict.1 (1 / 2) { cols := 20, rows := 20 } Candidates.empty
      [1 / 2, 1 / 2, 1 / 4, 1 / 4, 0, 1 / 2, 3 / 10] (1 / 2)
      (by simp) (by intro v hv; simp at hv; rcases hv with rfl | rfl <;> norm_num)).2
      (le_refl _),
   (decode_threshold_strict.1 (1 / 2) { cols := 20, rows := 20 } Candidates.empty
      [1 / 2, 1 / 2, 1 / 4, 1 / 4, 0, 3 / 10, 51 / 100] (51 / 100)
      (by simp) (by intro v hv; simp at hv; rcases hv with rfl | rfl <;> norm_num)).1
      (by norm_num),
   decode_threshold_strict.2 loadedScanner _ _ _ loadedScanner_detect⟩

/-- Claim C8. For every admitted row (one with a class score above the
threshold) the loop body appends a candidate whose confidence `m` is the
maximum of the columns from index 5 to the end of the row, and whose class id
`k` is the lowest zero-based position, within those columns, holding `m`:
every earlier column is strictly smaller. -/
theorem decodeRow_argmax (t : ℚ) (frame : Frame) (acc : Candidates) (row : List ℚ)
    (hadm : ∃ v ∈ row.drop 5, t < v) :
    ∃ (m : ℚ) (k : Nat) (box : Rect),
      decodeRow t frame acc row =
        some { classIds := acc.classIds ++ [(k : Int)],
               confidences := acc.confidences ++ [m],
               boxes := acc.boxes ++ [box] } ∧
      (row.drop 5)[k]? = some m ∧ (∀ v ∈ row.drop 5, v ≤ m) ∧
      ∀ j < k, ∀ v, (row.drop 5)[j]? = some v → v < m := by
  obtain ⟨v₀, hv₀, htv₀⟩ := hadm
  have hlen : 5 < row.length := by
    by_contra hle
    rw [List.drop_eq_nil_of_le (not_lt.mp hle)] at hv₀
    cases hv₀
  obtain ⟨cx, cy, w, h, o, s, scores, rfl⟩ := row_split row hlen
  obtain ⟨m, k, hmm, hk, hmax, hfirst⟩ := minMaxLoc_spec (s :: scores) (by simp)
  have hmt : m > t := lt_of_lt_of_le htv₀ (hmax v₀ (by simpa using hv₀))
  refine ⟨m, k, decodeBox frame cx cy w h, ?_, by simpa using hk,
    by simpa using hmax, by simpa using hfirst⟩
  rw [decodeRow_eq t frame _ cx cy w h o _ m k hmm, if_pos hmt]

/-- Witness of C8: the class scores (0.2, 0.9, 0.9, 0.5) have their maximum 0.9
at the positions 1 and 2; the candidate gets class id 1 and confidence 0.9. -/
theorem decodeRow_argmax_witness :
    ∃ (m : ℚ) (k : Nat) (box : Rect),
      decodeRow (1 / 2) { cols := 20, rows := 20 } Candidates.empty
          [1 / 2, 1 / 2, 1 / 4, 1 / 4, 0, 1 / 5, 9 / 10, 9 / 10, 1 / 2] =
        some { classIds := Candidates.empty.classIds ++ [(k : Int)],
               confidences := Candidates.empty.confidences ++ [m],
               boxes := Candidates.empty.boxes ++ [box] } ∧
      (List.drop 5 [1 / 2, 1 / 2, 1 / 4, 1 / 4, 0, 1 / 5, 9 / 10, 9 / 10, 1 / 2])[k]?
        = some m ∧
      (∀ v ∈ List.drop 5 [(1 / 2 : ℚ), 1 / 2, 1 / 4, 1 / 4, 0, 1 / 5, 9 / 10, 9 / 10, 1 / 2],
        v ≤ m) ∧
      ∀ j < k, ∀ v,
        (List.drop 5 [(1 / 2 : ℚ), 1 / 2, 1 / 4, 1 / 4, 0, 1 / 5, 9 / 10, 9 / 10, 1 / 2])[j]?
          = some v → v < m :=
  decodeRow_argmax (1 / 2) { cols := 20, rows := 20 } Candidates.empty
    [1 / 2, 1 / 2, 1 / 4, 1 / 4, 0, 1 / 5, 9 / 10, 9 / 10, 1 / 2]
    ⟨9 / 10, by simp, by norm_num⟩

theorem box_twenty :
    decodeBox { cols := 20, rows := 20 } (1 / 2) (1 / 2) (1 / 4) (1 / 4)
      = { x := 8, y := 8, width := 5, height := 5 } :=
  decodeBox_small _ _ _ _ _ 10 10 5 5 (by decide) (by decide)
    (by norm_num) (by norm_num) (by norm_num) (by norm_num)
    (by decide) (by decide) (by decide) (by decide) (by decide) (by decide)

theorem toFloat_07_640 : toFloat (11744051 / 16777216 * 640) = 448 := by
  rw [toFloat_eq _ 8 (by norm_num) (by norm_num [abs_of_pos]) (by norm_num [abs_of_pos]),
    roundHalfEven_of_gt _ 14680063 (by norm_num) (by norm_num)]
  norm_num

theorem toFloat_035_640 : toFloat (11744051 / 33554432 * 640) = 224 := by
  rw [toFloat_eq _ 7 (by norm_num) (by norm_num [abs_of_pos]) (by norm_num [abs_of_pos]),
    roundHalfEven_of_gt _ 14680063 (by norm_num) (by norm_num)]
  norm_num

theorem toFloat_035_20 : toFloat (11744051 / 33554432 * 20) = 7 := by
  rw [toFloat_eq _ 2 (by norm_num) (by norm_num [abs_of_pos]) (by norm_num [abs_of_pos]),
    roundHalfEven_of_gt _ 14680063 (by norm_num) (by norm_num)]
  norm_num

/-- The box for cx = 0.7f, cy = 0.5, w = h = 0.35f on a 640x20 frame: the
products 447.99999237..., 223.99999618... and 6.99999988... are rounded to 448,
224 and 7 before the cast. -/
theorem box_rounded :
    decodeBox { cols := 640, rows := 20 } (11744051 / 16777216) (1 / 2)
        (11744051 / 33554432) (11744051 / 33554432)
      = { x := 336, y := 7, width := 224, height := 7 } :=
  decodeBox_eval _ _ _ _ _ 640 20 448 10 224 7
    (by simpa using toFloat_fits 640 (by decide))
    (by simpa using toFloat_fits 20 (by decide))
    (by simpa using toFloat_07_640)
    (by have h := toFloat_fits 10 (by decide)
        norm_num at h ⊢
        exact h)
    (by simpa using toFloat_035_640)
    (by simpa using toFloat_035_20)
    (by decide) (by decide) (by decide) (by decide) (by decide) (by decide)

/-- Claim C4 (as amended). For every admitted row with normalized values
(cx, cy, w, h) and every frame of width W and height H, the box appended has
width (int)fl(w*W) and height (int)fl(h*H), and its corner is
x = (int)fl(cx*W) - width/2 and y = (int)fl(cy*H) - height/2, where fl is the
`float` product the code forms (W and H converted to `float`, the product
rounded to the nearest binary32 value), (int) the cast to the 32-bit `int`,
`/` the truncating division and `-` the subtraction of `int`. When W, H and the
four products are binary32 values and the truncations and the two differences
are values of `int`, this is x = trunc(cx*W) - trunc(w*W)/2,
y = trunc(cy*H) - trunc(h*H)/2, width = trunc(w*W), height = trunc(h*H) with
the exact products and truncation toward zero. -/
theorem decodeRow_box (t : ℚ) (frame : Frame) (acc : Candidates)
    (cx cy w h o : ℚ) (scores : List ℚ) (hadm : ∃ v ∈ scores, t < v) :
    ∃ c, decodeRow t frame acc (cx :: cy :: w :: h :: o :: scores) = some c ∧
      c.boxes = acc.boxes ++
        [{ x := wrapInt (toInt (toFloat (cx * toFloat (frame.cols : ℚ)))
                - Int.tdiv (toInt (toFloat (w * toFloat (frame.cols : ℚ)))) 2),
           y := wrapInt (toInt (toFloat (cy * toFloat (frame.rows : ℚ)))
                - Int.tdiv (toInt (toFloat (h * toFloat (frame.rows : ℚ)))) 2),
           width := toInt (toFloat (w * toFloat (frame.cols : ℚ))),
           height := toInt (toFloat (h * toFloat (frame.rows : ℚ))) }] ∧
      (IsBinary32 frame.cols → IsBinary32 frame.rows →
        IsBinary32 (cx * frame.cols) → IsBinary32 (cy * frame.rows) →
        IsBinary32 (w * frame.cols) → IsBinary32 (h * frame.rows) →
        IsInt (trunc (cx * frame.cols)) → IsInt (trunc (cy * frame.rows)) →
        IsInt (trunc (w * frame.cols)) → IsInt (trunc (h * frame.rows)) →
        IsInt (trunc (cx * frame.cols) - Int.tdiv (trunc (w * frame.cols)) 2) →
        IsInt (trunc (cy * frame.rows) - Int.tdiv (trunc (h * frame.rows)) 2) →
        c.boxes = acc.boxes ++
          [{ x := trunc (cx * frame.cols) - Int.tdiv (trunc (w * frame.cols)) 2,
             y := trunc (cy * frame.rows) - Int.tdiv (trunc (h * frame.rows)) 2,
             width := trunc (w * frame.cols),
             height := trunc (h * frame.rows) }]) := by
  obtain ⟨v₀, hv₀, htv₀⟩ := hadm
  have hne : scores ≠ [] := by rintro rfl; cases hv₀
  obtain ⟨m, k, hmm, -, hmax, -⟩ := minMaxLoc_spec scores hne
  have hmt : m > t := lt_of_lt_of_le htv₀ (hmax v₀ hv₀)
  refine ⟨_, by rw [decodeRow_eq t frame _ cx cy w h o _ m k hmm, if_pos hmt], rfl, ?_⟩
  intro bW bH b1 b2 b3 b4 i1 i2 i3 i4 ix iy
  simp only [decodeBox, toFloat_binary32 _ bW, toFloat_binary32 _ bH,
    toFloat_binary32 _ b1, toFloat_binary32 _ b2, toFloat_binary32 _ b3,
    toFloat_binary32 _ b4, toInt_eq_trunc _ i1, toInt_eq_trunc _ i2,
    toInt_eq_trunc _ i3, toInt_eq_trunc _ i4, wrapInt_of_isInt _ ix,
    wrapInt_of_isInt _ iy]

/-- Witness of C4 as amended. On a 640x20 frame cx = 0.7f, cy = 0.5 and
w = h = 0.35f give the box (336, 7, 224, 7), the products being rounded to 448,
224 and 7, where the exact products truncate to 447 and 6. On a 20x20 frame
cx = cy = 0.5 and w = h = 0.25 give the box (8, 8, 5, 5), the products being
exact. -/
theorem decodeRow_box_witness :
    (∃ c, decodeRow (1 / 2) { cols := 640, rows := 20 } Candidates.empty
        (11744051 / 16777216 :: 1 / 2 :: 11744051 / 33554432 :: 11744051 / 33554432
          :: 0 :: [3 / 4]) = some c ∧
      c.boxes = [{ x := 336, y := 7, width := 224, height := 7 }]) ∧
    trunc (11744051 / 16777216 * 640) = 447 ∧
    trunc (11744051 / 33554432 * 20) = 6 ∧
    (∃ c, decodeRow (1 / 2) { cols := 20, rows := 20 } Candidates.empty
        (1 / 2 :: 1 / 2 :: 1 / 4 :: 1 / 4 :: 0 :: [9 / 10]) = some c ∧
      c.boxes = [{ x := 8, y := 8, width := 5, height := 5 }]) := by
  have t10 : trunc ((1 / 2 : ℚ) * ((20 : Int) : ℚ)) = 10 := by
    unfold trunc
    rw [if_pos (by norm_num), Int.floor_eq_iff]
    norm_num
  have t5 : trunc ((1 / 4 : ℚ) * ((20 : Int) : ℚ)) = 5 := by
    unfold trunc
    rw [if_pos (by norm_num), Int.floor_eq_iff]
    norm_num
  refine ⟨?_, ?_, ?_, ?_⟩
  · obtain ⟨c, hc, hbox, -⟩ := decodeRow_box (1 / 2) { cols := 640, rows := 20 }
      Candidates.empty (11744051 / 16777216) (1 / 2) (11744051 / 33554432)
      (11744051 / 33554432) 0 [3 / 4] ⟨3 / 4, by simp, by norm_num⟩
    refine ⟨c, hc, ?_⟩
    have hb := box_rounded
    unfold decodeBox at hb
    simp only at hb
    rw [hbox, hb]
    rfl
  · unfold trunc
    rw [if_pos (by norm_num), Int.floor_eq_iff]
    norm_num
  · unfold trunc
    rw [if_pos (by norm_num), Int.floor_eq_iff]
    norm_num
  · obtain ⟨c, hc, -, hexact⟩ := decodeRow_box (1 / 2) { cols := 20, rows := 20 }
      Candidates.empty (1 / 2) (1 / 2) (1 / 4) (1 / 4) 0 [9 / 10]
      ⟨9 / 10, by simp, by norm_num⟩
    refine ⟨c, hc, ?_⟩
    have h20 : IsBinary32 ((20 : Int) : ℚ) :=
      ⟨5, 2, by norm_num, by norm_num, by norm_num, by norm_num⟩
    have h10 : IsBinary32 ((1 / 2 : ℚ) * ((20 : Int) : ℚ)) :=
      ⟨5, 1, by norm_num, by norm_num, by norm_num, by norm_num⟩
    have h5 : IsBinary32 ((1 / 4 : ℚ) * ((20 : Int) : ℚ)) :=
      ⟨5, 0, by norm_num, by norm_num, by norm_num, by norm_num⟩
    have hres := hexact h20 h20 h10 h10 h5 h5
      (by rw [t10]; decide) (by rw [t10]; decide) (by rw [t5]; decide) (by rw [t5]; decide)
      (by rw [t10, t5]; decide) (by rw [t10, t5]; decide)
    rw [hres, t10, t5]
    rfl

/-- Claim C4 (counterexample). For cx = cy = 0.5, w = h = 0.25 and a 20x20 frame
the loop builds the box (8, 8, 5, 5): x is 10 - 5/2 = 8 in integers, while the
truncation of cx*W - (w*W)/2 = 7.5 is 7. -/
theorem decodeRow_box_not_exact :
    decodeRow (1 / 2) { cols := 20, rows := 20 } Candidates.empty
        [1 / 2, 1 / 2, 1 / 4, 1 / 4, 0, 9 / 10]
      = some { classIds := [0], confidences := [9 / 10],
               boxes := [{ x := 8, y := 8, width := 5, height := 5 }] } ∧
    (if 0 ≤ (1 / 2 : ℚ) * (20 : Int) - ((1 / 4 : ℚ) * (20 : Int)) / 2
      then ⌊(1 / 2 : ℚ) * (20 : Int) - ((1 / 4 : ℚ) * (20 : Int)) / 2⌋
      else ⌈(1 / 2 : ℚ) * (20 : Int) - ((1 / 4 : ℚ) * (20 : Int)) / 2⌉) = 7 := by
  constructor
  · exact decodeRow_admit (1 / 2) { cols := 20, rows := 20 } Candidates.empty
      (1 / 2) (1 / 2) (1 / 4) (1 / 4) 0 [9 / 10] (9 / 10) 0 _ rfl (by norm_num) box_twenty
  · have h0 : (0 : ℚ) ≤ (1 / 2 : ℚ) * (20 : Int) - ((1 / 4 : ℚ) * (20 : Int)) / 2 := by
      norm_num
    rw [if_pos h0, Int.floor_eq_iff]
    norm_num

/-- Claim C7 (as amended). The decode loop compares no element count: when every
row has more than 5 elements, each row, of the expected length or not, is
decoded on its own and gives one candidate if one of its columns from index 5
on exceeds the threshold and none otherwise; the three vectors are the row
results appended in row order, so there are as many candidates as rows with
such a column. -/
theorem decode_every_row (t : ℚ) (frame : Frame) (outputs : List (List (List ℚ)))
    (hrows : ∀ output ∈ outputs, ∀ row ∈ output, 5 < row.length) :
    ∃ c cs, decode t frame outputs = some c ∧
      c = cs.foldl Candidates.append Candidates.empty ∧
      List.Forall₂ (fun row r => decodeRow t frame Candidates.empty row = some r ∧
        r.confidences.length = (if ∃ v ∈ row.drop 5, t < v then 1 else 0))
        outputs.flatten cs ∧
      c.confidences.length =
        (outputs.flatten.filter fun row => (row.drop 5).any fun v => decide (t < v)).length :=
  decode_total t frame outputs hrows

theorem wideRow_length (score : ℚ) : (wideRow score).length = 4 + 80 := by
  simp [wideRow]

theorem mixedOutputs_flatten :
    mixedOutputs.flatten = [wideRow (9 / 10), shortRow, wideRow (4 / 5)] := rfl

theorem mixedOutputs_long :
    ∀ output ∈ mixedOutputs, ∀ row ∈ output, 5 < row.length := by
  intro output ho row hr
  have hmem : row ∈ mixedOutputs.flatten := List.mem_flatten.mpr ⟨output, ho, hr⟩
  rw [mixedOutputs_flatten] at hmem
  simp only [List.mem_cons, List.mem_singleton, List.not_mem_nil, or_false] at hmem
  rcases hmem with rfl | rfl | rfl
  · rw [wideRow_length]; decide
  · decide
  · rw [wideRow_length]; decide

theorem maxLocFrom_replicate (best : ℚ) (bestIdx : Nat) (hb : 0 ≤ best) :
    ∀ (n i : Nat), maxLocFrom best bestIdx i (List.replicate n 0) = (best, bestIdx) := by
  intro n
  induction n with
  | zero => intro i; rfl
  | succ n ih =>
    intro i
    rw [List.replicate_succ, maxLocFrom, if_neg (not_lt.mpr hb)]
    exact ih (i + 1)

theorem decodeRow_wideRow (score : ℚ) (hs : (1 / 2 : ℚ) < score) (acc : Candidates) :
    decodeRow (1 / 2) { cols := 20, rows := 20 } acc (wideRow score) =
      some { classIds := acc.classIds ++ [0],
             confidences := acc.confidences ++ [score],
             boxes := acc.boxes ++ [{ x := 8, y := 8, width := 5, height := 5 }] } := by
  have hmm : minMaxLoc (score :: List.replicate 78 0) = some (score, 0) := by
    rw [minMaxLoc, maxLocFrom_replicate score 0 (by linarith)]
  have hrow : wideRow score
      = 1 / 2 :: 1 / 2 :: 1 / 4 :: 1 / 4 :: 0 :: (score :: List.replicate 78 0) := rfl
  have hbox := box_twenty
  rw [hrow, decodeRow_eq _ _ _ _ _ _ _ _ _ score 0 hmm, if_pos hs, hbox]
  rfl

theorem decodeRow_shortRow (acc : Candidates) :
    decodeRow (1 / 2) { cols := 20, rows := 20 } acc shortRow =
      some { classIds := acc.classIds ++ [0],
             confidences := acc.confidences ++ [9 / 10],
             boxes := acc.boxes ++ [{ x := 8, y := 8, width := 5, height := 5 }] } := by
  have hmm : minMaxLoc [(9 / 10 : ℚ)] = some (9 / 10, 0) := rfl
  have hbox := box_twenty
  have hrow : shortRow = 1 / 2 :: 1 / 2 :: 1 / 4 :: 1 / 4 :: 0 :: [9 / 10] := rfl
  rw [hrow, decodeRow_eq _ _ _ _ _ _ _ _ _ (9 / 10) 0 hmm, if_pos (by norm_num), hbox]
  rfl

/-- Witness of C7 as amended: two matrices of `4 + 80` columns and one of 6
columns, one row each, all three rows with a score above 0.5, give three
candidates. -/
theorem decode_every_row_witness :
    ∃ c cs, decode (1 / 2) { cols := 20, rows := 20 } mixedOutputs = some c ∧
      c = cs.foldl Candidates.append Candidates.empty ∧
      List.Forall₂ (fun row r =>
        decodeRow (1 / 2) { cols := 20, rows := 20 } Candidates.empty row = some r ∧
        r.confidences.length = (if ∃ v ∈ row.drop 5, (1 / 2 : ℚ) < v then 1 else 0))
        mixedOutputs.flatten cs ∧
      c.confidences.length =
        (mixedOutputs.flatten.filter
          fun row => (row.drop 5).any fun v => decide ((1 / 2 : ℚ) < v)).length :=
  decode_every_row (1 / 2) { cols := 20, rows := 20 } mixedOutputs mixedOutputs_long

/-- Claim C7 (counterexample). One row of 6 elements between two admitted rows
of `4 + 80` elements, each in its own output matrix: the decode loop does not
skip the short row and produces 3 candidates, not 2, the second being the
short row's (class id 0, confidence 0.9, box (8, 8, 5, 5)); without the short
row it produces 2. -/
theorem decode_short_row_not_skipped :
    mixedOutputs = [[wideRow (9 / 10)], [shortRow], [wideRow (4 / 5)]] ∧
    (wideRow (9 / 10)).length = 4 + 80 ∧ (wideRow (4 / 5)).length = 4 + 80 ∧
    shortRow.length = 6 ∧
    decode (1 / 2) { cols := 20, rows := 20 } mixedOutputs =
      some { classIds := [0, 0, 0], confidences := [9 / 10, 9 / 10, 4 / 5],
             boxes := [{ x := 8, y := 8, width := 5, height := 5 },
                       { x := 8, y := 8, width := 5, height := 5 },
                       { x := 8, y := 8, width := 5, height := 5 }] } ∧
    decode (1 / 2) { cols := 20, rows := 20 } wideOutputs =
      some { classIds := [0, 0], confidences := [9 / 10, 4 / 5],
             boxes := [{ x := 8, y := 8, width := 5, height := 5 },
                       { x := 8, y := 8, width := 5, height := 5 }] } := by
  refine ⟨rfl, wideRow_length _, wideRow_length _, rfl, ?_, ?_⟩
  · simp only [decode, mixedOutputs, List.foldlM_cons, List.foldlM_nil,
      decodeRow_wideRow (9 / 10) (by norm_num), decodeRow_wideRow (4 / 5) (by norm_num),
      decodeRow_shortRow, Option.pure_def, Option.bind_eq_bind, Option.some_bind]
    rfl
  · simp only [decode, wideOutputs, List.foldlM_cons, List.foldlM_nil,
      decodeRow_wideRow (9 / 10) (by norm_num), decodeRow_wideRow (4 / 5) (by norm_num),
      Option.pure_def, Option.bind_eq_bind, Option.some_bind]
    rfl

/-! ## Idempotence of the suppression -/

/-- Claim C9. For every pair of parallel candidate vectors and every pair of
thresholds, the boxes and scores at the indices kept by `NMSBoxes` are all
there (no index misses its vector), and `NMSBoxes` with the same thresholds
applied to them keeps every one of them, in the same order: its result is
0, 1, ..., k-1 for the k kept candidates. -/
theorem NMSBoxes_idempotent (bboxes : List Rect) (scores : List ℚ) (t n : ℚ) :
    ((NMSBoxes bboxes scores t n).filterMap fun i => bboxes[i]?).length
      = (NMSBoxes bboxes scores t n).length ∧
    ((NMSBoxes bboxes scores t n).filterMap fun i => scores[i]?).length
      = (NMSBoxes bboxes scores t n).length ∧
    NMSBoxes ((NMSBoxes bboxes scores t n).filterMap fun i => bboxes[i]?)
        ((NMSBoxes bboxes scores t n).filterMap fun i => scores[i]?) t n
      = List.range (NMSBoxes bboxes scores t n).length := by
  have hb : (NMSBoxes bboxes scores t n).filterMap (fun i => bboxes[i]?)
      = (keptEntries bboxes scores t n).map Scored.box := by
    unfold NMSBoxes
    rw [List.filterMap_map]
    exact filterMap_eq_map _ _ _ (fun e he => (keptEntries_mem _ _ _ _ e he).1)
  have hs : (NMSBoxes bboxes scores t n).filterMap (fun i => scores[i]?)
      = (keptEntries bboxes scores t n).map Scored.score := by
    unfold NMSBoxes
    rw [List.filterMap_map]
    exact filterMap_eq_map _ _ _ (fun e he => (keptEntries_mem _ _ _ _ e he).2.1)
  rw [hb, hs]
  refine ⟨by simp [NMSBoxes], by simp [NMSBoxes], ?_⟩
  have hfix := keptEntries_fixed (keptEntries bboxes scores t n) t n
    (fun e he => (keptEntries_mem _ _ _ _ e he).2.2)
    (keptEntries_sorted _ _ _ _) (keptEntries_pairwise _ _ _ _)
  show (keptEntries _ _ t n).map Scored.idx = _
  rw [hfix, entriesFrom_idx, List.range_eq_range']
  simp [NMSBoxes]

end Scanner
